import Mathlib

/-!
# Verification of the virtual-filesystem shell core (`src/shell.py`)

This file gives a shallow embedding of the `VirtualFileSystem` class of
`shell.py` and proves/refutes the frozen claims about it.

Modelling conventions:
* Python strings are modelled as `List Char` internally (`String` at the
  public interface), and every `posixpath` helper used by the code
  (`isabs`, `dirname`, `normpath`, `join`) is re-implemented faithfully
  from CPython's `posixpath.py` on `List Char`.
* `VirtualFile` objects become the inductive `VFile`; the Python `dict`
  of children becomes an insertion-ordered association list with
  overwrite-in-place insertion, exactly mirroring `dict` semantics for
  the operations the code uses (`in`, `get`, `[...] =`, `keys()`).
* `get_node`'s handling of `..` re-resolves
  `posixpath.dirname(self.current_path)` through a recursive call.  That
  recursion does not terminate in Python when `dirname(current_path)`
  itself contains a `..` reached away from the root (the call repeats
  itself verbatim), so the model threads an explicit `RRes.diverge`
  outcome: `diverge` marks executions on which the Python process raises
  `RecursionError`/`AttributeError` instead of returning.  On every state
  reachable through the public API the cursor is a `normpath` output and
  `diverge` never arises.
* Python's `current == self.root` is object identity; in the model it is
  structural equality.  The two agree on trees built by `load_tar`, where
  no child node can equal the root (children are named by slash-free
  path segments while the root is named `"/"`).
-/

mutual
/-- One node of the virtual filesystem: Python class `VirtualFile`
(`shell.py` lines 7-12).  `children` is the insertion-ordered `dict`;
note that in the source every node carries a `children` dict and a
`content` string, files included. -/
inductive VFile : Type where
  | mk (name : String) (is_dir : Bool) (children : Children) (content : String)
  deriving DecidableEq
/-- The insertion-ordered `dict` of children: a key-ordered association
sequence. -/
inductive Children : Type where
  | nil
  | cons (key : String) (val : VFile) (rest : Children)
  deriving DecidableEq
end

namespace VFile

def name : VFile → String
  | .mk n _ _ _ => n

def is_dir : VFile → Bool
  | .mk _ d _ _ => d

def children : VFile → Children
  | .mk _ _ ch _ => ch

def content : VFile → String
  | .mk _ _ _ c => c

end VFile

/-- Python `d.get(k)` on the children dict: first (only) binding of `k`. -/
def chGet (ch : Children) (k : String) : Option VFile :=
  match ch with
  | .nil => none
  | .cons k' v rest => if k' = k then some v else chGet rest k

/-- Python `d[k] = v` on the children dict: overwrite in place if the key is
present, else append (Python dicts keep insertion order and overwriting
keeps the original position). -/
def chSet (ch : Children) (k : String) (v : VFile) : Children :=
  match ch with
  | .nil => .cons k v .nil
  | .cons k' v' rest => if k' = k then .cons k' v rest else .cons k' v' (chSet rest k v)

/-- Python `list(d.keys())` in insertion order. -/
def chKeys (ch : Children) : List String :=
  match ch with
  | .nil => []
  | .cons k _ rest => k :: chKeys rest

/-! ## Path-string primitives (CPython `posixpath` on `List Char`) -/

/-- Python `s.split('/')`: splits at every `'/'`, keeping empty pieces; the
result always has one more piece than the string has slashes. -/
def splitSlash : List Char → List (List Char)
  | [] => [[]]
  | c :: rest =>
    if c = '/' then [] :: splitSlash rest
    else
      match splitSlash rest with
      | [] => [[c]]
      | s :: ss => (c :: s) :: ss

/-- Python `s.lstrip('/')`. -/
def lstripSlash (p : List Char) : List Char := p.dropWhile (· = '/')

/-- Python `s.rstrip('/')`. -/
def rstripSlash (p : List Char) : List Char := (p.reverse.dropWhile (· = '/')).reverse

/-- Python `s.strip('/')`. -/
def stripSlash (p : List Char) : List Char := rstripSlash (lstripSlash p)

/-- Python `posixpath.isabs(s)`: starts with the separator. -/
def isAbs (p : List Char) : Bool :=
  match p with
  | [] => false
  | c :: _ => c = '/'

/-- Python `posixpath.dirname(s)`: everything up to the last separator, with
trailing separators stripped unless the result is all separators. -/
def dirname (p : List Char) : List Char :=
  let head := (p.reverse.dropWhile (· ≠ '/')).reverse
  if head ≠ [] ∧ head.any (· ≠ '/') then rstripSlash head else head

/-- Python `'/'.join(pieces)`. -/
def joinPieces : List (List Char) → List Char
  | [] => []
  | [s] => s
  | s :: rest => s ++ '/' :: joinPieces rest

/-- The body of `posixpath.normpath`'s component loop: one step of the
fold over components. -/
def normStep (initialSlashes : Nat) (acc : List (List Char)) (comp : List Char) :
    List (List Char) :=
  if comp = [] ∨ comp = ['.'] then acc
  else if comp ≠ ['.', '.'] ∨ (initialSlashes = 0 ∧ acc = []) ∨
      (acc ≠ [] ∧ acc.getLast? = some ['.', '.']) then acc ++ [comp]
  else if acc ≠ [] then acc.dropLast
  else acc

/-- The `initial_slashes` value of `posixpath.normpath`: 0 for relative
paths, 2 when the path starts with exactly two separators
(`path.startswith(sep*2) and not path.startswith(sep*3)`), 1 otherwise. -/
def initSlashes (p : List Char) : Nat :=
  if isAbs p then
    if p.take 2 = ['/', '/'] ∧ p.take 3 ≠ ['/', '/', '/'] then 2 else 1
  else 0

/-- Python `posixpath.normpath(s)`, translated clause by clause from CPython
(including the special treatment of exactly two leading separators). -/
def normpath (p : List Char) : List Char :=
  if p = [] then ['.']
  else
    let comps := splitSlash p
    let newComps := comps.foldl (normStep (initSlashes p)) []
    let res := List.replicate (initSlashes p) '/' ++ joinPieces newComps
    if res = [] then ['.'] else res

/-- Python `posixpath.join(a, b)` for a single extra part. -/
def joinPath (a b : List Char) : List Char :=
  if isAbs b then b
  else if a = [] ∨ a.getLast? = some '/' then a ++ b
  else a ++ '/' :: b

/-! ## Path resolution (`VirtualFileSystem.get_node`, lines 51-73) -/

/-- Outcome of one `get_node` execution.  `ok`/`notFound` are the two
Python return values (a node / `None`); `diverge` marks executions on
which Python raises instead of returning (unbounded recursion through
`self.get_node(...)`, or `AttributeError` from `None.children`). -/
inductive RRes : Type where
  | ok (v : VFile)
  | notFound
  | diverge
deriving DecidableEq

/-- The state of a `VirtualFileSystem` object: the tree root and the
mutable `current_path` string. -/
structure FS : Type where
  root : VFile
  current_path : String
deriving DecidableEq

/-- Intermediate outcome of the segment loop of `get_node`: the loop can
run to completion with a final value of the local `current` (possibly
`None`), return `None` early from a failed lookup, or leave the function
without returning (`diverge`). -/
inductive WRes : Type where
  | cont (cur : Option VFile)
  | failed
  | diverge
deriving DecidableEq

/-- The segment loop of `get_node` (lines 61-73).  `cur` is the Python
local `current`, which can be `None` mid-walk; `pd` is the (pure, hence
precomputable) result of `self.get_node(posixpath.dirname(self.current_path))`
that every `..` segment consults. -/
def walkAux (root : VFile) (pd : RRes) : Option VFile → List (List Char) → WRes
  | cur, [] => .cont cur
  | cur, part :: rest =>
    if part = ['.', '.'] then
      -- `current == self.root` is False when current is None
      if cur = some root then walkAux root pd cur rest
      else
        match pd with
        | .ok p => walkAux root pd (some p) rest
        | .notFound => walkAux root pd (some root) rest  -- `parent if parent else self.root`
        | .diverge => .diverge
    else if part = ['.'] ∨ part = [] then walkAux root pd cur rest
    else
      match cur with
      | some c =>
        match chGet c.children (String.mk part) with
        | some nxt => walkAux root pd (some nxt) rest
        | none => .failed
      | none => .diverge  -- `None.children` raises AttributeError

/-- The loop followed by the function's `return current`: both
`WRes.failed` (the early `return None`) and a final `current` of `None`
surface as the Python return value `None`. -/
def walk (root : VFile) (pd : RRes) (cur : Option VFile) (parts : List (List Char)) : RRes :=
  match walkAux root pd cur parts with
  | .cont (some v) => .ok v
  | .cont none => .notFound
  | .failed => .notFound
  | .diverge => .diverge

/-- The absolute branch of `get_node`: `path.lstrip('/')`, start at the
root, empty remainder returns the root itself. -/
def absResolveWith (root : VFile) (pd : RRes) (path : List Char) : RRes :=
  let p := lstripSlash path
  if p = [] then .ok root
  else walk root pd (some root) (splitSlash p)

/-- Python `self.get_node(posixpath.dirname(self.current_path))`, the node every
`..` segment moves to.  In Python this is a recursive call that repeats
itself verbatim whenever `dirname(current_path)` again contains a `..`
reached away from the root (or is not absolute), so the recursion bottoms
out in `diverge` exactly where Python's recursion never returns. -/
def FS.pd (fs : FS) : RRes :=
  let d := dirname fs.current_path.toList
  if isAbs d then absResolveWith fs.root .diverge d else .diverge

/-- Python `VirtualFileSystem.get_node` (lines 51-73), with the three-way
outcome.  A relative path starts from `self.get_node(self.current_path)`;
when the cursor is not absolute that inner call recurses forever in
Python (`diverge`). -/
def get_nodeR (fs : FS) (path : String) : RRes :=
  let p := path.toList
  if isAbs p then absResolveWith fs.root fs.pd p
  else if isAbs fs.current_path.toList then
    match absResolveWith fs.root fs.pd fs.current_path.toList with
    | .ok cur => if p = [] then .ok cur else walk fs.root fs.pd (some cur) (splitSlash p)
    | .notFound => if p = [] then .notFound else walk fs.root fs.pd none (splitSlash p)
    | .diverge => .diverge
  else .diverge

/-- Python `get_node` as the Python caller sees it on terminating executions:
a node or `None`.  (`diverge` collapses to `none`; every theorem below
that relies on this collapse carries hypotheses under which `diverge`
cannot arise.) -/
def get_node (fs : FS) (path : String) : Option VFile :=
  match get_nodeR fs path with
  | .ok v => some v
  | _ => none

/-! ## The four operations (lines 75-101) -/

/-- Python `sorted(...)` on a list of strings: ascending (lexicographically by
code point, which is Python `str` comparison) and stable.  The comparator
is stated on `toList` so that it evaluates by `decide`; it agrees with
`String.le` by `String.le_iff_toList_le`. -/
def sortedStr (l : List String) : List String :=
  l.insertionSort (fun a b => a.toList ≤ b.toList)

/-- Python `VirtualFileSystem.list_dir` (lines 75-79). -/
def list_dir (fs : FS) (path : String) : Option (List String) :=
  match get_nodeR fs path with
  | .ok n => if n.is_dir then some (sortedStr (chKeys n.children)) else none
  | _ => none

/-- Python `VirtualFileSystem.change_dir` (lines 81-91): returns the Python
return value together with the state after the call.  On `diverge` the
Python call raises before touching `self.current_path`, so the state is
likewise unchanged. -/
def change_dir (fs : FS) (path : String) : Bool × FS :=
  match get_nodeR fs path with
  | .ok n =>
    if n.is_dir then
      let p := path.toList
      let np := if isAbs p then normpath p
                else normpath (joinPath fs.current_path.toList p)
      let np' := if isAbs np then np else '/' :: np
      (true, { fs with current_path := String.mk np' })
    else (false, fs)
  | _ => (false, fs)

/-- Python `VirtualFileSystem.print_working_directory` (lines 93-94). -/
def print_working_directory (fs : FS) : String := fs.current_path

/-- Python line-boundary characters of `str.splitlines`. -/
def isLineBreak (c : Char) : Bool :=
  c = '\n' ∨ c = '\r' ∨ c = '\x0b' ∨ c = '\x0c' ∨
  c = '\x1c' ∨ c = '\x1d' ∨ c = '\x1e' ∨ c = '\u0085' ∨
  c = '\u2028' ∨ c = '\u2029'

/-- Python `str.splitlines` worker: `acc` holds the current line reversed. -/
def splitlinesAux (acc : List Char) : List Char → List (List Char)
  | [] => if acc = [] then [] else [acc.reverse]
  | '\r' :: '\n' :: rest => acc.reverse :: splitlinesAux [] rest
  | c :: rest =>
    if isLineBreak c then acc.reverse :: splitlinesAux [] rest
    else splitlinesAux (c :: acc) rest

/-- Python `s.splitlines()`. -/
def splitlines (s : String) : List String :=
  (splitlinesAux [] s.toList).map String.mk

/-- Python `l[-lines:]` for a Python `int` `lines` (CPython slice clamping:
a negative start counts from the end and clamps at 0, a non-negative
start clamps at `len`). -/
def pyLastSlice (l : List String) (lines : Int) : List String :=
  let s : Int := -lines
  let start : Nat := if s < 0 then l.length - (-s).toNat else min s.toNat l.length
  l.drop start

/-- Python `VirtualFileSystem.read_tail` (lines 96-101). -/
def read_tail (fs : FS) (path : String) (lines : Int) : Option String :=
  match get_nodeR fs path with
  | .ok n =>
    if n.is_dir then none
    else some (String.intercalate "\n" (pyLastSlice (splitlines n.content) lines))
  | _ => none

/-! ## Construction (`VirtualFileSystem.load_tar`, lines 20-49) -/

/-- One archive member as `load_tar` consumes it: its `name`, whether
`member.isdir()`, and for file members the result of
`tar.extractfile(member).read().decode('utf-8')` — `some t` when the
bytes decode to `t`, `none` when decoding raises `UnicodeDecodeError`
(or `extractfile` yields no data), in which case `vf.content` keeps its
initial `""`. -/
structure TarEntry : Type where
  name : String
  isdir : Bool
  decoded : Option String
deriving DecidableEq

/-- The node stored for an entry's last path segment (lines 39-49). -/
def entryLeaf (e : TarEntry) (last : String) : VFile :=
  if e.isdir then .mk last true .nil ""
  else .mk last false .nil (match e.decoded with | some t => t | none => "")

/-- The walk of lines 34-49: create-if-absent an intermediate node named
by every segment but the last (always a fresh empty Directory when
absent — the code never checks `is_dir` on the node it descends into),
then insert/overwrite the leaf at the last segment. -/
def insertAt (node : VFile) (e : TarEntry) : List (List Char) → VFile
  | [] => node
  | [last] =>
    match node with
    | .mk n d ch c => .mk n d (chSet ch (String.mk last) (entryLeaf e (String.mk last))) c
  | part :: rest =>
    match node with
    | .mk n d ch c =>
      let key := String.mk part
      let child :=
        match chGet ch key with
        | some v => v
        | none => VFile.mk key true .nil ""
      .mk n d (chSet ch key (insertAt child e rest)) c

/-- Processing of a single member inside the `for` loop of `load_tar`
(lines 25-49). -/
def loadEntry (root : VFile) (e : TarEntry) : VFile :=
  if e.name = "." ∨ e.name = "./" ∨ e.name = "" then root
  else
    let path := '/' :: stripSlash e.name.toList
    let parts := splitSlash path
    if parts.getLast? = some [] then root
    else insertAt root e parts.tail

/-- Python `load_tar` over the member list, starting from the fresh root of
`__init__` (line 16). -/
def load_tar (entries : List TarEntry) : VFile :=
  entries.foldl loadEntry (VFile.mk "/" true .nil "")

/-- Python `VirtualFileSystem.__init__` (lines 15-18): fresh root, cursor `"/"`,
then `load_tar`. -/
def initFS (entries : List TarEntry) : FS :=
  { root := load_tar entries, current_path := "/" }

/-- A path segment that is an actual name: neither empty nor `.` nor `..`. -/
def validSeg (s : List Char) : Prop := s ≠ [] ∧ s ≠ ['.'] ∧ s ≠ ['.', '.']

instance (s : List Char) : Decidable (validSeg s) := by
  unfold validSeg; infer_instance

/-- A well-formed (normalized, absolute) cursor string: one or two
leading separators, followed by a `/`-joined list of real name segments.
Exactly the shape `normpath` produces for absolute inputs; the initial
cursor `"/"` is `GoodC` with `segs = []`. -/
def GoodC (p : List Char) : Prop :=
  ∃ k segs, (k = 1 ∨ k = 2) ∧ (∀ s ∈ segs, validSeg s ∧ '/' ∉ s) ∧
    p = List.replicate k '/' ++ joinPieces segs

/-- The components `normpath` keeps for a `..`-free path: everything but
empty and `.` components. -/
def keepSeg (s : List Char) : Bool := !(s = [] || s = ['.'])

/-- Follow path segments literally through children (no special-casing of
`.`, `..` or empty segments) — the exact descent `load_tar` performs. -/
def lookupPath (node : VFile) : List (List Char) → Option VFile
  | [] => some node
  | part :: rest =>
    match chGet node.children (String.mk part) with
    | some c => lookupPath c rest
    | none => none

/-- The node a `..` segment moves to when the walk is not at the root:
`parent if parent else self.root`, where `parent` is
`self.get_node(posixpath.dirname(self.current_path))`.  (The `diverge`
arm is never consulted under the hypotheses of the theorems below.) -/
def cursorParent (fs : FS) : VFile :=
  match fs.pd with
  | .ok p => p
  | .notFound => fs.root
  | .diverge => fs.root

mutual
/-- Key-uniqueness of every children dict in the tree (automatic for
Python dicts; the model's association sequences preserve it through
`chSet`). -/
def wfV : VFile → Bool
  | .mk _ _ ch _ => wfC ch
def wfC : Children → Bool
  | .nil => true
  | .cons k v rest => decide (k ∉ chKeys rest) && wfV v && wfC rest
end

/-- Reachability: `n` occurs in the tree rooted at `r`. -/
inductive Reach : VFile → VFile → Prop where
  | refl (v : VFile) : Reach v v
  | child (r : VFile) (k : String) (v n : VFile) :
      chGet r.children k = some v → Reach v n → Reach r n

instance : IsTotal String (fun a b => a.toList ≤ b.toList) :=
  ⟨fun a b => le_total a.toList b.toList⟩

instance : IsTrans String (fun a b => a.toList ≤ b.toList) :=
  ⟨fun _ _ _ h h' => le_trans h h'⟩

/-! ## Lemmas: path-string primitives -/

theorem splitSlash_ne_nil (p : List Char) : splitSlash p ≠ [] := by
  cases p with
  | nil => simp [splitSlash]
  | cons c rest =>
    simp only [splitSlash]
    split
    · simp
    · cases h : splitSlash rest <;> simp

theorem splitSlash_cons_slash (p : List Char) :
    splitSlash ('/' :: p) = [] :: splitSlash p := by
  simp [splitSlash]

theorem splitSlash_cons_ne (c : Char) (p : List Char) (hc : c ≠ '/') :
    splitSlash (c :: p) =
      (c :: (splitSlash p).headI) :: (splitSlash p).tail := by
  simp only [splitSlash, if_neg hc]
  cases h : splitSlash p with
  | nil => exact absurd h (splitSlash_ne_nil p)
  | cons s ss => simp [List.headI]

theorem splitSlash_append_slash (xs ys : List Char) :
    splitSlash (xs ++ '/' :: ys) = splitSlash xs ++ splitSlash ys := by
  induction xs with
  | nil => simp [splitSlash_cons_slash, splitSlash]
  | cons c rest ih =>
    by_cases hc : c = '/'
    · subst hc
      simp only [List.cons_append, splitSlash_cons_slash, ih, List.cons_append]
    · rw [List.cons_append, splitSlash_cons_ne c _ hc, splitSlash_cons_ne c rest hc, ih]
      cases h : splitSlash rest with
      | nil => exact absurd h (splitSlash_ne_nil rest)
      | cons s ss => simp [List.headI]

theorem splitSlash_single (xs : List Char) (h : '/' ∉ xs) : splitSlash xs = [xs] := by
  induction xs with
  | nil => simp [splitSlash]
  | cons c rest ih =>
    have hc : c ≠ '/' := fun hcc => h (hcc ▸ List.mem_cons_self c rest)
    rw [splitSlash_cons_ne c rest hc, ih (fun hm => h (List.mem_cons_of_mem c hm))]
    simp [List.headI]

theorem no_slash_of_mem_splitSlash (p : List Char) :
    ∀ s ∈ splitSlash p, '/' ∉ s := by
  induction p with
  | nil => intro s hs; simp [splitSlash] at hs; simp [hs]
  | cons c rest ih =>
    intro s hs
    by_cases hc : c = '/'
    · subst hc
      rw [splitSlash_cons_slash] at hs
      rcases List.mem_cons.mp hs with h | h
      · simp [h]
      · exact ih s h
    · rw [splitSlash_cons_ne c rest hc] at hs
      rcases List.mem_cons.mp hs with h | h
      · subst h
        intro hmem
        rcases List.mem_cons.mp hmem with h' | h'
        · exact hc h'.symm
        · have : (splitSlash rest).headI ∈ splitSlash rest := by
            cases hh : splitSlash rest with
            | nil => exact absurd hh (splitSlash_ne_nil rest)
            | cons a as => simp [List.headI]
          exact ih _ this h'
      · have : s ∈ splitSlash rest := by
          cases hh : splitSlash rest with
          | nil => exact absurd hh (splitSlash_ne_nil rest)
          | cons a as => rw [hh] at h; exact hh ▸ List.mem_cons_of_mem a h
        exact ih s this

theorem joinPieces_cons (s : List Char) (rest : List (List Char)) (h : rest ≠ []) :
    joinPieces (s :: rest) = s ++ '/' :: joinPieces rest := by
  cases rest with
  | nil => exact absurd rfl h
  | cons r rs => rfl

theorem splitSlash_joinPieces (ps : List (List Char)) (hne : ps ≠ [])
    (h : ∀ s ∈ ps, '/' ∉ s) : splitSlash (joinPieces ps) = ps := by
  induction ps with
  | nil => exact absurd rfl hne
  | cons s rest ih =>
    cases rest with
    | nil => exact splitSlash_single s (h s (List.mem_cons_self s []))
    | cons r rs =>
      rw [joinPieces_cons s (r :: rs) (by simp), splitSlash_append_slash,
        splitSlash_single s (h s (List.mem_cons_self s _)),
        ih (by simp) (fun t ht => h t (List.mem_cons_of_mem s ht))]
      rfl

theorem lstrip_cons_slash (p : List Char) : lstripSlash ('/' :: p) = lstripSlash p := by
  simp [lstripSlash, List.dropWhile]

theorem lstrip_replicate (k : Nat) (ys : List Char) :
    lstripSlash (List.replicate k '/' ++ ys) = lstripSlash ys := by
  induction k with
  | zero => simp
  | succ n ih => rw [List.replicate_succ, List.cons_append, lstrip_cons_slash, ih]

theorem lstrip_of_head_ne (c : Char) (p : List Char) (hc : c ≠ '/') :
    lstripSlash (c :: p) = c :: p := by
  simp [lstripSlash, List.dropWhile, hc]

theorem lstrip_append_of_ne (xs ys : List Char) (h : lstripSlash xs ≠ []) :
    lstripSlash (xs ++ ys) = lstripSlash xs ++ ys := by
  unfold lstripSlash at *
  rw [List.dropWhile_append]
  simp only [List.isEmpty_iff]
  rw [if_neg h]

/-! ## Lemmas: the resolution walk -/


theorem walkAux_append (root : VFile) (pd : RRes) (cur : Option VFile)
    (xs ys : List (List Char)) :
    walkAux root pd cur (xs ++ ys) =
      match walkAux root pd cur xs with
      | .cont c => walkAux root pd c ys
      | .failed => .failed
      | .diverge => .diverge := by
  induction xs generalizing cur with
  | nil => rfl
  | cons part rest ih =>
    simp only [List.cons_append, walkAux]
    by_cases h1 : part = ['.', '.']
    · simp only [if_pos h1]
      by_cases h2 : cur = some root
      · simp only [if_pos h2]; exact ih cur
      · simp only [if_neg h2]
        cases pd with
        | ok p => exact ih (some p)
        | notFound => exact ih (some root)
        | diverge => rfl
    · simp only [if_neg h1]
      by_cases h2 : part = ['.'] ∨ part = []
      · simp only [if_pos h2]; exact ih cur
      · simp only [if_neg h2]
        cases cur with
        | none => rfl
        | some c =>
          dsimp only
          cases chGet c.children (String.mk part) with
          | none => rfl
          | some nxt => exact ih (some nxt)

theorem walkAux_ne_cont_none (root : VFile) (pd : RRes) (c : VFile)
    (ps : List (List Char)) : walkAux root pd (some c) ps ≠ .cont none := by
  induction ps generalizing c with
  | nil => simp [walkAux]
  | cons part rest ih =>
    simp only [walkAux]
    by_cases h1 : part = ['.', '.']
    · simp only [if_pos h1]
      by_cases h2 : some c = some root
      · simp only [if_pos h2]; exact ih c
      · simp only [if_neg h2]
        cases pd with
        | ok p => exact ih p
        | notFound => exact ih root
        | diverge => simp
    · simp only [if_neg h1]
      by_cases h2 : part = ['.'] ∨ part = []
      · simp only [if_pos h2]; exact ih c
      · simp only [if_neg h2]
        cases chGet c.children (String.mk part) with
        | none => simp
        | some nxt => exact ih nxt

theorem walkAux_pd_irrel (root : VFile) (pd pd' : RRes) (cur : Option VFile)
    (ps : List (List Char)) (h : ∀ s ∈ ps, s ≠ ['.', '.']) :
    walkAux root pd cur ps = walkAux root pd' cur ps := by
  induction ps generalizing cur with
  | nil => rfl
  | cons part rest ih =>
    have hp : part ≠ ['.', '.'] := h part (List.mem_cons_self part rest)
    have hr : ∀ s ∈ rest, s ≠ ['.', '.'] := fun s hs => h s (List.mem_cons_of_mem part hs)
    simp only [walkAux, if_neg hp]
    by_cases h2 : part = ['.'] ∨ part = []
    · simp only [if_pos h2]; exact ih cur hr
    · simp only [if_neg h2]
      cases cur with
      | none => rfl
      | some c =>
        dsimp only
        cases chGet c.children (String.mk part) with
        | none => rfl
        | some nxt => exact ih (some nxt) hr

theorem walkAux_no_diverge (root : VFile) (pd : RRes) (c : VFile)
    (ps : List (List Char)) (h : ∀ s ∈ ps, s ≠ ['.', '.']) :
    walkAux root pd (some c) ps ≠ .diverge := by
  induction ps generalizing c with
  | nil => simp [walkAux]
  | cons part rest ih =>
    have hp : part ≠ ['.', '.'] := h part (List.mem_cons_self part rest)
    have hr : ∀ s ∈ rest, s ≠ ['.', '.'] := fun s hs => h s (List.mem_cons_of_mem part hs)
    simp only [walkAux, if_neg hp]
    by_cases h2 : part = ['.'] ∨ part = []
    · simp only [if_pos h2]; exact ih c hr
    · simp only [if_neg h2]
      cases chGet c.children (String.mk part) with
      | none => simp
      | some nxt => exact ih nxt hr

theorem walkAux_skip_head (root : VFile) (pd : RRes) (cur : Option VFile)
    (part : List Char) (rest : List (List Char)) (h : part = ['.'] ∨ part = []) :
    walkAux root pd cur (part :: rest) = walkAux root pd cur rest := by
  have hp : part ≠ ['.', '.'] := by rcases h with h | h <;> simp [h]
  simp only [walkAux, if_neg hp, if_pos h]

theorem walkAux_name_head (root : VFile) (pd : RRes) (c : VFile)
    (part : List Char) (rest : List (List Char)) (h : validSeg part) :
    walkAux root pd (some c) (part :: rest) =
      match chGet c.children (String.mk part) with
      | some nxt => walkAux root pd (some nxt) rest
      | none => .failed := by
  obtain ⟨h0, h1, h2⟩ := h
  simp only [walkAux, if_neg h2, if_neg (by simp [h0, h1] : ¬(part = ['.'] ∨ part = []))]

/-! ## Normalized cursors -/


theorem joinPieces_ne_nil (segs : List (List Char)) (hne : segs ≠ [])
    (h : ∀ s ∈ segs, validSeg s) : joinPieces segs ≠ [] := by
  cases segs with
  | nil => exact absurd rfl hne
  | cons s rest =>
    cases rest with
    | nil =>
      have := (h s (List.mem_cons_self s [])).1
      simpa [joinPieces] using this
    | cons r rs =>
      rw [joinPieces_cons s (r :: rs) (by simp)]
      have := (h s (List.mem_cons_self s _)).1
      cases s with
      | nil => exact absurd rfl this
      | cons c cs => simp

theorem joinPieces_head_ne_slash (segs : List (List Char)) (hne : segs ≠ [])
    (h : ∀ s ∈ segs, validSeg s ∧ '/' ∉ s) :
    ∀ c cs, joinPieces segs = c :: cs → c ≠ '/' := by
  cases segs with
  | nil => exact absurd rfl hne
  | cons s rest =>
    intro c cs heq
    obtain ⟨⟨hs0, _, _⟩, hsl⟩ := h s (List.mem_cons_self s rest)
    cases s with
    | nil => exact absurd rfl hs0
    | cons a as =>
      have ha : a ≠ '/' := fun hh => hsl (hh ▸ List.mem_cons_self a as)
      cases rest with
      | nil =>
        have heq' : a :: as = c :: cs := heq
        injection heq' with h1 _
        exact h1 ▸ ha
      | cons r rs =>
        rw [joinPieces_cons _ (r :: rs) (by simp), List.cons_append] at heq
        injection heq with h1 _
        exact h1 ▸ ha

theorem lstrip_joinPieces (segs : List (List Char))
    (h : ∀ s ∈ segs, validSeg s ∧ '/' ∉ s) :
    lstripSlash (joinPieces segs) = joinPieces segs := by
  cases hs : joinPieces segs with
  | nil => rfl
  | cons c cs =>
    have hcne : c ≠ '/' := by
      cases segs with
      | nil => simp [joinPieces] at hs
      | cons a as => exact joinPieces_head_ne_slash (a :: as) (by simp) h c cs hs
    exact lstrip_of_head_ne c cs hcne

/-- Resolution of a `GoodC`-shaped absolute string is the plain walk over
its segments from the root. -/
theorem absResolveWith_repl_join (root : VFile) (pd : RRes) (k : Nat)
    (segs : List (List Char)) (h : ∀ s ∈ segs, validSeg s ∧ '/' ∉ s) :
    absResolveWith root pd (List.replicate k '/' ++ joinPieces segs) =
      walk root pd (some root) segs := by
  unfold absResolveWith
  rw [lstrip_replicate, lstrip_joinPieces segs h]
  cases segs with
  | nil => simp [joinPieces, walk, walkAux]
  | cons s rest =>
    have hne : joinPieces (s :: rest) ≠ [] :=
      joinPieces_ne_nil (s :: rest) (by simp) (fun t ht => (h t ht).1)
    rw [if_neg hne, splitSlash_joinPieces (s :: rest) (by simp) (fun t ht => (h t ht).2)]

/-! ## Lemmas: normpath -/

theorem getLast?_mem' {α : Type} {l : List α} {a : α} (h : l.getLast? = some a) :
    a ∈ l := by
  obtain ⟨hh, rfl⟩ :=
    List.mem_getLast?_eq_getLast (l := l) (x := a) (by simp [Option.mem_def, h])
  exact List.getLast_mem hh


theorem keepSeg_eq_false (s : List Char) (h : s = [] ∨ s = ['.']) :
    keepSeg s = false := by
  rcases h with h | h <;> simp [keepSeg, h]

theorem keepSeg_eq_true (s : List Char) (h0 : s ≠ []) (h1 : s ≠ ['.']) :
    keepSeg s = true := by
  simp [keepSeg, h0, h1]

theorem normStep_skip (k : Nat) (acc : List (List Char)) (s : List Char)
    (h : s = [] ∨ s = ['.']) : normStep k acc s = acc := by
  rw [normStep, if_pos h]

theorem normStep_valid (k : Nat) (acc : List (List Char)) (s : List Char)
    (h : validSeg s) : normStep k acc s = acc ++ [s] := by
  obtain ⟨h0, h1, h2⟩ := h
  rw [normStep, if_neg (by simp [h0, h1]), if_pos (Or.inl h2)]

theorem normStep_dotdot (k : Nat) (hk : k ≠ 0) (acc : List (List Char))
    (hacc : acc.getLast? ≠ some ['.', '.']) :
    normStep k acc ['.', '.'] = acc.dropLast := by
  have hcond : ¬(['.', '.'] ≠ ['.', '.'] ∨ (k = 0 ∧ acc = []) ∨
      (acc ≠ [] ∧ acc.getLast? = some ['.', '.'])) := by
    rintro (h | ⟨h0, _⟩ | ⟨_, hl⟩)
    · exact h rfl
    · exact hk h0
    · exact hacc hl
  rw [normStep, if_neg (by simp), if_neg hcond]
  by_cases hne : acc = []
  · subst hne; simp
  · rw [if_pos hne]

theorem foldl_normStep_no_dotdot (k : Nat) (cs : List (List Char))
    (h : ∀ s ∈ cs, s ≠ ['.', '.']) (acc : List (List Char)) :
    cs.foldl (normStep k) acc = acc ++ cs.filter keepSeg := by
  induction cs generalizing acc with
  | nil => simp
  | cons s rest ih =>
    have hs := h s (List.mem_cons_self s rest)
    have hr : ∀ t ∈ rest, t ≠ ['.', '.'] := fun t ht => h t (List.mem_cons_of_mem s ht)
    by_cases hskip : s = [] ∨ s = ['.']
    · rw [List.foldl_cons, normStep_skip k acc s hskip, ih hr, List.filter_cons,
        keepSeg_eq_false s hskip]
      simp
    · push_neg at hskip
      rw [List.foldl_cons, normStep_valid k acc s ⟨hskip.1, hskip.2, hs⟩, ih hr,
        List.filter_cons, keepSeg_eq_true s hskip.1 hskip.2]
      simp

theorem filter_keepSeg_no_dotdot (cs : List (List Char))
    (h : ∀ s ∈ cs, s ≠ ['.', '.']) :
    ∀ s ∈ cs.filter keepSeg, validSeg s := by
  intro s hs
  obtain ⟨hmem, hkeep⟩ := List.mem_filter.mp hs
  have := keepSeg_eq_false s
  refine ⟨?_, ?_, h s hmem⟩ <;>
    (intro hcontra; rw [keepSeg_eq_false s (by simp [hcontra])] at hkeep; cases hkeep)

theorem initSlashes_repl (k : Nat) (hk : k = 1 ∨ k = 2) (x : List Char)
    (hx : ∀ c cs, x = c :: cs → c ≠ '/') :
    initSlashes (List.replicate k '/' ++ x) = k := by
  rcases hk with hk | hk <;> subst hk
  · cases x with
    | nil => rfl
    | cons c cs =>
      have hc : c ≠ '/' := hx c cs rfl
      simp only [List.replicate, List.cons_append, List.nil_append]
      rw [initSlashes, if_pos (by rfl)]
      rw [if_neg (by rintro ⟨h2, _⟩; simp at h2; exact hc h2)]
  · cases x with
    | nil => rfl
    | cons c cs =>
      have hc : c ≠ '/' := hx c cs rfl
      simp only [List.replicate, List.cons_append, List.nil_append]
      rw [initSlashes, if_pos (by rfl)]
      rw [if_pos (by refine ⟨rfl, ?_⟩; simp [hc])]

theorem normpath_no_dotdot (p : List Char) (hp : p ≠ [])
    (h : ∀ s ∈ splitSlash p, s ≠ ['.', '.']) (k : Nat) (hk : initSlashes p = k)
    (hk0 : k ≠ 0) :
    normpath p =
      List.replicate k '/' ++ joinPieces ((splitSlash p).filter keepSeg) := by
  rw [normpath, if_neg hp]
  simp only [hk]
  rw [foldl_normStep_no_dotdot k _ h []]
  simp only [List.nil_append]
  rw [if_neg (by
    intro hcontra
    rcases List.append_eq_nil.mp hcontra with ⟨h1, _⟩
    exact hk0 (by simpa using congrArg List.length h1))]

theorem normpath_dotdot_last (p : List Char) (hp : p ≠ [])
    (cs : List (List Char)) (hsp : splitSlash p = cs ++ [['.', '.']])
    (h : ∀ s ∈ cs, s ≠ ['.', '.']) (k : Nat) (hk : initSlashes p = k)
    (hk0 : k ≠ 0) :
    normpath p =
      List.replicate k '/' ++ joinPieces ((cs.filter keepSeg).dropLast) := by
  have hlast : (cs.filter keepSeg).getLast? ≠ some ['.', '.'] := by
    intro hl
    exact h _ (List.mem_filter.mp (getLast?_mem' hl)).1 rfl
  rw [normpath, if_neg hp]
  simp only [hk, hsp]
  rw [List.foldl_append, foldl_normStep_no_dotdot k _ h [], List.foldl_cons,
    List.foldl_nil, List.nil_append, normStep_dotdot k hk0 _ hlast]
  rw [if_neg (by
    intro hcontra
    rcases List.append_eq_nil.mp hcontra with ⟨h1, _⟩
    exact hk0 (by simpa using congrArg List.length h1))]

/-! ## Lemmas: dirname and rstrip -/

theorem dropWhile_append_all {α : Type} {p : α → Bool} (xs ys : List α)
    (h : ∀ x ∈ xs, p x = true) :
    List.dropWhile p (xs ++ ys) = List.dropWhile p ys := by
  rw [List.dropWhile_append, if_pos (by
    rw [List.isEmpty_iff, List.dropWhile_eq_nil_iff]; exact h)]

theorem rstrip_append_slash (xs : List Char) :
    rstripSlash (xs ++ ['/']) = rstripSlash xs := by
  unfold rstripSlash
  rw [List.reverse_append]
  simp [List.dropWhile_cons]

theorem rstrip_of_getLast_ne (xs : List Char) (h : xs.getLast? ≠ some '/') :
    rstripSlash xs = xs := by
  unfold rstripSlash
  cases hx : xs.reverse with
  | nil => simp [List.reverse_eq_nil_iff.mp hx]
  | cons c r =>
    have hc : c ≠ '/' := by
      intro hcc
      apply h
      rw [← List.head?_reverse, hx, hcc]
      rfl
    rw [List.dropWhile_cons, if_neg (by simp [hc])]
    rw [← hx, List.reverse_reverse]

theorem dropWhile_ne_slash_replicate (k : Nat) :
    List.dropWhile (fun c => c ≠ '/') (List.replicate k '/') =
      List.replicate k '/' := by
  cases k with
  | zero => rfl
  | succ n =>
    rw [List.replicate_succ, List.dropWhile_cons, if_neg (by simp)]

theorem dirname_all_slash (k : Nat) :
    dirname (List.replicate k '/') = List.replicate k '/' := by
  unfold dirname
  rw [List.reverse_replicate]
  have hdw : List.dropWhile (fun c => decide (c ≠ '/')) (List.replicate k '/') =
      List.replicate k '/' := by
    cases k with
    | zero => rfl
    | succ n => rw [List.replicate_succ, List.dropWhile_cons, if_neg (by simp)]
  simp only [hdw, List.reverse_replicate]
  rw [if_neg (by
    rintro ⟨_, hany⟩
    rcases List.any_eq_true.mp hany with ⟨c, hc, hcn⟩
    rw [List.eq_of_mem_replicate hc] at hcn
    simp at hcn)]

theorem dirname_repl_no_slash (k : Nat) (x : List Char) (hx : '/' ∉ x) :
    dirname (List.replicate k '/' ++ x) = List.replicate k '/' := by
  unfold dirname
  rw [List.reverse_append, List.reverse_replicate]
  rw [dropWhile_append_all x.reverse _ (by
    intro c hc
    simp only [decide_eq_true_eq]
    intro hcc
    exact hx (hcc ▸ List.mem_reverse.mp hc))]
  have hdw : List.dropWhile (fun c => decide (c ≠ '/')) (List.replicate k '/') =
      List.replicate k '/' := by
    cases k with
    | zero => rfl
    | succ n => rw [List.replicate_succ, List.dropWhile_cons, if_neg (by simp)]
  simp only [hdw, List.reverse_replicate]
  rw [if_neg (by
    rintro ⟨_, hany⟩
    rcases List.any_eq_true.mp hany with ⟨c, hc, hcn⟩
    rw [List.eq_of_mem_replicate hc] at hcn
    simp at hcn)]

theorem dirname_append_seg (a x : List Char) (ha : a.getLast? ≠ some '/')
    (hany : a.any (fun c => c ≠ '/') = true) (hx : '/' ∉ x) :
    dirname (a ++ '/' :: x) = a := by
  have hdw : List.dropWhile (fun c => decide (c ≠ '/')) ((a ++ '/' :: x).reverse)
      = '/' :: a.reverse := by
    have hrev : (a ++ '/' :: x).reverse = x.reverse ++ '/' :: a.reverse := by simp
    rw [hrev, dropWhile_append_all x.reverse _ (by
      intro c hc
      simp only [decide_eq_true_eq]
      intro hcc
      exact hx (hcc ▸ List.mem_reverse.mp hc)),
      List.dropWhile_cons, if_neg (by simp)]
  simp only [dirname, hdw, List.reverse_cons, List.reverse_reverse]
  rw [if_pos ⟨by simp, by rw [List.any_append, hany]; rfl⟩]
  rw [rstrip_append_slash, rstrip_of_getLast_ne a ha]

/-! ## Lemmas: joinPieces structure and the cursor parent -/

theorem splitSlash_repl_append (k : Nat) (x : List Char) :
    splitSlash (List.replicate k '/' ++ x) =
      List.replicate k [] ++ splitSlash x := by
  induction k with
  | zero => simp
  | succ n ih =>
    rw [List.replicate_succ, List.cons_append, splitSlash_cons_slash, ih,
      List.replicate_succ, List.cons_append]

theorem joinPieces_append_last (cs : List (List Char)) (x : List Char)
    (h : cs ≠ []) :
    joinPieces (cs ++ [x]) = joinPieces cs ++ '/' :: x := by
  induction cs with
  | nil => exact absurd rfl h
  | cons s rest ih =>
    cases rest with
    | nil => rfl
    | cons r rs =>
      rw [List.cons_append, joinPieces_cons s ((r :: rs) ++ [x]) (by simp),
        joinPieces_cons s (r :: rs) (by simp), ih (by simp)]
      simp

theorem joinPieces_getLast_ne_slash (segs : List (List Char)) (hne : segs ≠ [])
    (h : ∀ s ∈ segs, validSeg s ∧ '/' ∉ s) :
    (joinPieces segs).getLast? ≠ some '/' := by
  induction segs with
  | nil => exact absurd rfl hne
  | cons s rest ih =>
    cases rest with
    | nil =>
      intro hl
      exact (h s (by simp)).2 (getLast?_mem' hl)
    | cons r rs =>
      rw [joinPieces_cons s (r :: rs) (by simp)]
      intro hl
      have hresth : ∀ t ∈ r :: rs, validSeg t ∧ '/' ∉ t :=
        fun t ht => h t (List.mem_cons_of_mem s ht)
      have hjoin_ne : joinPieces (r :: rs) ≠ [] :=
        joinPieces_ne_nil _ (by simp) (fun t ht => (hresth t ht).1)
      have hstep : ('/' :: joinPieces (r :: rs)).getLast? =
          (joinPieces (r :: rs)).getLast? := by
        cases hj : joinPieces (r :: rs) with
        | nil => exact absurd hj hjoin_ne
        | cons j js => rw [List.getLast?_cons_cons]
      rw [List.getLast?_append, hstep,
        List.getLast?_eq_getLast_of_ne_nil hjoin_ne] at hl
      simp only [Option.or_some] at hl
      exact ih (by simp) hresth
        (by rw [List.getLast?_eq_getLast_of_ne_nil hjoin_ne]; exact hl)

theorem joinPieces_any_ne_slash (segs : List (List Char)) (hne : segs ≠ [])
    (h : ∀ s ∈ segs, validSeg s ∧ '/' ∉ s) :
    (joinPieces segs).any (fun c => c ≠ '/') = true := by
  cases segs with
  | nil => exact absurd rfl hne
  | cons s rest =>
    obtain ⟨⟨hs0, _, _⟩, hsl⟩ := h s (List.mem_cons_self s rest)
    cases s with
    | nil => exact absurd rfl hs0
    | cons a as =>
      have ha : a ≠ '/' := fun hh => hsl (hh ▸ List.mem_cons_self a as)
      rw [List.any_eq_true]
      refine ⟨a, ?_, by simpa using ha⟩
      cases rest with
      | nil => exact List.mem_cons_self a as
      | cons r rs =>
        rw [joinPieces_cons _ (r :: rs) (by simp), List.cons_append]
        exact List.mem_cons_self a _

theorem isAbs_repl_append (k : Nat) (hk : k ≠ 0) (x : List Char) :
    isAbs (List.replicate k '/' ++ x) = true := by
  cases k with
  | zero => exact absurd rfl hk
  | succ n => rw [List.replicate_succ, List.cons_append]; rfl

theorem dirname_repl_join (k : Nat) (segs : List (List Char))
    (hsegs : ∀ s ∈ segs, validSeg s ∧ '/' ∉ s) :
    dirname (List.replicate k '/' ++ joinPieces segs) =
      List.replicate k '/' ++ joinPieces segs.dropLast := by
  rcases List.eq_nil_or_concat segs with rfl | ⟨cs, last, rfl⟩
  · have hj : joinPieces ([] : List (List Char)) = [] := rfl
    rw [List.dropLast_nil, hj, List.append_nil]
    exact dirname_all_slash k
  · simp only [List.concat_eq_append] at hsegs ⊢
    have hlast := hsegs last (by simp)
    rw [List.dropLast_concat]
    rcases List.eq_nil_or_concat cs with rfl | hcs
    · rw [List.nil_append]
      have hj : joinPieces [last] = last := rfl
      rw [hj]
      have hj2 : joinPieces ([] : List (List Char)) = [] := rfl
      rw [hj2, List.append_nil]
      exact dirname_repl_no_slash k last hlast.2
    · have hcsne : cs ≠ [] := by rcases hcs with ⟨a, b, rfl⟩; simp
      have hcs_valid : ∀ s ∈ cs, validSeg s ∧ '/' ∉ s :=
        fun s hs => hsegs s (List.mem_append_left _ hs)
      rw [joinPieces_append_last cs last hcsne]
      have hassoc : List.replicate k '/' ++ (joinPieces cs ++ '/' :: last) =
          (List.replicate k '/' ++ joinPieces cs) ++ '/' :: last := by simp
      rw [hassoc, dirname_append_seg _ last ?hlastne ?hany hlast.2]
      case hlastne =>
        rw [List.getLast?_append]
        have hjne : joinPieces cs ≠ [] :=
          joinPieces_ne_nil cs hcsne (fun t ht => (hcs_valid t ht).1)
        rw [List.getLast?_eq_getLast_of_ne_nil hjne]
        simp only [Option.or_some]
        intro hcontra
        apply joinPieces_getLast_ne_slash cs hcsne hcs_valid
        rw [List.getLast?_eq_getLast_of_ne_nil hjne]
        exact hcontra
      case hany =>
        rw [List.any_append, joinPieces_any_ne_slash cs hcsne hcs_valid]
        simp

/-- For a well-formed cursor, the node `..` jumps to is the resolution of
the cursor's segments minus the last one, by a plain child walk. -/
theorem pd_goodC (root : VFile) (cur : String) (k : Nat) (segs : List (List Char))
    (hk : k = 1 ∨ k = 2) (hsegs : ∀ s ∈ segs, validSeg s ∧ '/' ∉ s)
    (hcur : cur.toList = List.replicate k '/' ++ joinPieces segs) :
    FS.pd ⟨root, cur⟩ = walk root .diverge (some root) segs.dropLast := by
  have hk0 : k ≠ 0 := by rcases hk with rfl | rfl <;> simp
  unfold FS.pd
  simp only [hcur, dirname_repl_join k segs hsegs]
  rw [if_pos (isAbs_repl_append k hk0 _), absResolveWith_repl_join root _ k
    segs.dropLast (fun s hs => hsegs s ((List.dropLast_sublist segs).subset hs))]

/-! ## Lemmas: children dict and construction -/

theorem chGet_chSet_self (ch : Children) (k : String) (v : VFile) :
    chGet (chSet ch k v) k = some v := by
  match ch with
  | .nil => simp [chSet, chGet]
  | .cons k' v' rest =>
    by_cases h : k' = k
    · simp [chSet, chGet, h]
    · simp [chSet, chGet, h, chGet_chSet_self rest k v]

theorem chGet_chSet_ne (ch : Children) (k k' : String) (v : VFile) (h : k ≠ k') :
    chGet (chSet ch k v) k' = chGet ch k' := by
  match ch with
  | .nil => simp [chSet, chGet, h]
  | .cons a av rest =>
    by_cases ha : a = k
    · subst ha; simp [chSet, chGet, h, chGet_chSet_ne rest a k' v h]
    · simp only [chSet, if_neg ha, chGet]
      by_cases ha' : a = k'
      · simp [ha']
      · simp [ha', chGet_chSet_ne rest k k' v h]


theorem lookupPath_cons (node : VFile) (part : List Char)
    (rest : List (List Char)) :
    lookupPath node (part :: rest) =
      match chGet node.children (String.mk part) with
      | some c => lookupPath c rest
      | none => none := rfl

theorem lookupPath_insertAt (node : VFile) (e : TarEntry)
    (parts : List (List Char)) (hne : parts ≠ []) :
    lookupPath (insertAt node e parts) parts =
      some (entryLeaf e (String.mk (parts.getLast hne))) := by
  induction parts generalizing node with
  | nil => exact absurd rfl hne
  | cons part rest ih =>
    cases rest with
    | nil =>
      cases node with
      | mk n d ch c =>
        show lookupPath (VFile.mk n d
          (chSet ch (String.mk part) (entryLeaf e (String.mk part))) c) [part] =
          some (entryLeaf e (String.mk ([part].getLast hne)))
        rw [lookupPath_cons]
        simp only [VFile.children, chGet_chSet_self, List.getLast_singleton]
        rfl
    | cons r rs =>
      cases node with
      | mk n d ch c =>
        have hins : insertAt (VFile.mk n d ch c) e (part :: r :: rs) =
            VFile.mk n d (chSet ch (String.mk part)
              (insertAt (match chGet ch (String.mk part) with
                         | some v => v
                         | none => VFile.mk (String.mk part) true .nil "")
                e (r :: rs))) c := rfl
        rw [hins, lookupPath_cons]
        simp only [VFile.children, chGet_chSet_self]
        rw [show ((part :: r :: rs).getLast hne) = (r :: rs).getLast (by simp)
          from List.getLast_cons (by simp)]
        exact ih _ (by simp)

theorem dropWhile_head_false {α : Type} (p : α → Bool) (l : List α) (c : α)
    (r : List α) (h : List.dropWhile p l = c :: r) : p c = false := by
  induction l with
  | nil => simp [List.dropWhile] at h
  | cons a as ih =>
    rw [List.dropWhile_cons] at h
    by_cases hp : p a
    · rw [if_pos hp] at h; exact ih h
    · rw [if_neg hp] at h
      injection h with h1 _
      subst h1
      simpa using hp

theorem rstrip_getLast_ne_slash (y : List Char) :
    (rstripSlash y).getLast? ≠ some '/' := by
  unfold rstripSlash
  rw [← List.head?_reverse, List.reverse_reverse]
  cases hd : List.dropWhile (fun c => decide (c = '/')) y.reverse with
  | nil => simp
  | cons c r =>
    have hc := dropWhile_head_false _ _ _ _ hd
    simp only [decide_eq_false_iff_not] at hc
    simp [hc]

theorem splitSlash_getLast_ne_nil (x : List Char) (hx : x ≠ [])
    (hlast : x.getLast? ≠ some '/') : (splitSlash x).getLast? ≠ some [] := by
  induction x with
  | nil => exact absurd rfl hx
  | cons c rest ih =>
    by_cases hc : c = '/'
    · subst hc
      rw [splitSlash_cons_slash]
      cases rest with
      | nil =>
        exact absurd (by rfl) hlast
      | cons d ds =>
        have hrl : (d :: ds).getLast? ≠ some '/' := by
          intro hcontra
          exact hlast (by rw [List.getLast?_cons_cons]; exact hcontra)
        cases hsp : splitSlash (d :: ds) with
        | nil => exact absurd hsp (splitSlash_ne_nil _)
        | cons s ss =>
          rw [List.getLast?_cons_cons]
          rw [hsp] at ih
          exact ih (by simp) hrl
    · rw [splitSlash_cons_ne c rest hc]
      cases rest with
      | nil =>
        simp [splitSlash, List.headI]
      | cons d ds =>
        have hrl : (d :: ds).getLast? ≠ some '/' := by
          intro hcontra
          exact hlast (by rw [List.getLast?_cons_cons]; exact hcontra)
        cases hsp : splitSlash (d :: ds) with
        | nil => exact absurd hsp (splitSlash_ne_nil _)
        | cons s ss =>
          cases ss with
          | nil =>
            simp only [hsp, List.tail_cons, List.headI]
            intro hcontra
            have := List.getLast?_concat ([] : List (List Char)) (a := c :: s)
            simp at hcontra
          | cons t ts =>
            simp only [hsp, List.tail_cons, List.headI]
            rw [List.getLast?_cons_cons]
            rw [hsp] at ih
            have := ih (by simp) hrl
            rw [List.getLast?_cons_cons] at this
            exact this

theorem stripSlash_getLast_ne_slash (p : List Char) :
    (stripSlash p).getLast? ≠ some '/' :=
  rstrip_getLast_ne_slash _

theorem loadEntry_lookup (t : VFile) (e : TarEntry)
    (hskip : ¬(e.name = "." ∨ e.name = "./" ∨ e.name = ""))
    (hstrip : stripSlash e.name.toList ≠ []) :
    lookupPath (loadEntry t e) (splitSlash (stripSlash e.name.toList)) =
      some (entryLeaf e (String.mk
        ((splitSlash (stripSlash e.name.toList)).getLast (splitSlash_ne_nil _)))) := by
  unfold loadEntry
  rw [if_neg hskip]
  have hparts : splitSlash ('/' :: stripSlash e.name.toList) =
      [] :: splitSlash (stripSlash e.name.toList) := splitSlash_cons_slash _
  simp only [hparts, List.tail_cons]
  rw [if_neg ?hlastcheck]
  case hlastcheck =>
    intro hcontra
    have hinner : (splitSlash (stripSlash e.name.toList)).getLast? = some [] := by
      cases hsp : splitSlash (stripSlash e.name.toList) with
      | nil => exact absurd hsp (splitSlash_ne_nil _)
      | cons s ss =>
        rw [hsp] at hcontra
        rw [List.getLast?_cons_cons] at hcontra
        exact hcontra
    exact splitSlash_getLast_ne_nil _ hstrip (stripSlash_getLast_ne_slash _) hinner
  exact lookupPath_insertAt t e _ (splitSlash_ne_nil _)

/-- C7: for any archive prefix `es` and any non-skipped entry `e`, the
node stored at `e`'s (normalized) segment path after loading `es ++ [e]`
is exactly the node built from `e` — independently of whatever `es` had
put there (an earlier file, an earlier explicit directory, or an
auto-created implicit directory).  Hence at equal normalized paths the
later entry's kind/content always replaces the earlier slot. -/
theorem load_tar_last_entry_wins (es : List TarEntry) (e : TarEntry)
    (hskip : ¬(e.name = "." ∨ e.name = "./" ∨ e.name = ""))
    (hstrip : stripSlash e.name.toList ≠ []) :
    lookupPath (load_tar (es ++ [e])) (splitSlash (stripSlash e.name.toList)) =
      some (entryLeaf e (String.mk
        ((splitSlash (stripSlash e.name.toList)).getLast (splitSlash_ne_nil _)))) := by
  unfold load_tar
  rw [List.foldl_append]
  simp only [List.foldl_cons, List.foldl_nil]
  exact loadEntry_lookup _ e hskip hstrip

/-- Witness for C7: an explicit directory entry `a/b` is later replaced
by a file entry at the same path, and the final node is the file. -/
theorem load_tar_last_entry_wins_witness :
    lookupPath (load_tar ([⟨"a/b", true, none⟩] ++ [⟨"a/b", false, some "new"⟩]))
        (splitSlash (stripSlash ("a/b" : String).toList)) =
      some (VFile.mk "b" false .nil "new") :=
  (load_tar_last_entry_wins [⟨"a/b", true, none⟩] ⟨"a/b", false, some "new"⟩
    (by decide) (by decide)).trans (by decide)

/-- C9: for a file entry whose bytes do not decode, the stored node's
content is the empty string, and when they decode to `t` the content is
exactly `t`; construction is a total function (it never raises), and
this holds after any archive prefix `es`. -/
theorem load_tar_decode_fallback (es : List TarEntry) (e : TarEntry)
    (hfile : e.isdir = false)
    (hskip : ¬(e.name = "." ∨ e.name = "./" ∨ e.name = ""))
    (hstrip : stripSlash e.name.toList ≠ []) :
    lookupPath (load_tar (es ++ [e])) (splitSlash (stripSlash e.name.toList)) =
      some (VFile.mk
        (String.mk ((splitSlash (stripSlash e.name.toList)).getLast (splitSlash_ne_nil _)))
        false .nil
        (match e.decoded with | some t => t | none => "")) := by
  unfold load_tar
  rw [List.foldl_append]
  simp only [List.foldl_cons, List.foldl_nil]
  rw [loadEntry_lookup _ e hskip hstrip]
  rw [entryLeaf, if_neg (by simp [hfile])]

/-- Witness for C9: an undecodable file gets content `""`, a decodable
one keeps its text. -/
theorem load_tar_decode_fallback_witness :
    lookupPath (load_tar ([] ++ [⟨"f", false, none⟩]))
        (splitSlash (stripSlash ("f" : String).toList)) =
      some (VFile.mk "f" false .nil "") ∧
    lookupPath (load_tar ([] ++ [⟨"g", false, some "txt"⟩]))
        (splitSlash (stripSlash ("g" : String).toList)) =
      some (VFile.mk "g" false .nil "txt") :=
  ⟨(load_tar_decode_fallback [] ⟨"f", false, none⟩ (by decide) (by decide)
      (by decide)).trans (by decide),
   (load_tar_decode_fallback [] ⟨"g", false, some "txt"⟩ (by decide) (by decide)
      (by decide)).trans (by decide)⟩

/-- C3 is false as stated: loading the single entry `a//b` creates a
node keyed and named by the empty string under `a` (the interior empty
segment from the doubled separator is not discarded), and `list_dir`
exposes it. -/
theorem c3_counterexample :
    (lookupPath (load_tar [⟨"a//b", false, some "x"⟩]) [['a'], []]).map VFile.name
      = some "" ∧
    list_dir (initFS [⟨"a//b", false, some "x"⟩]) "/a" = some [""] :=
  ⟨by decide, by decide⟩

/-- C3 (amended): leading and trailing separators are discarded by the
`strip`, but an interior empty segment produced by a doubled separator
is kept: it creates an intermediate child node keyed by the empty name
(so `a//b` creates nodes named `a`, `` and `b`).  Stated for an entry
`/A//B/` after any archive prefix. -/
theorem load_tar_empty_segment_nodes (es : List TarEntry) (e : TarEntry)
    (a b : List Char) (ha : a ≠ []) (hb : b ≠ []) (hsa : '/' ∉ a) (hsb : '/' ∉ b)
    (hname : e.name.toList = ('/' :: (a ++ '/' :: '/' :: b)) ++ ['/']) :
    lookupPath (load_tar (es ++ [e])) [a, [], b] =
      some (entryLeaf e (String.mk b)) ∧
    (∃ m, lookupPath (load_tar (es ++ [e])) [a] = some m ∧
      chGet m.children "" ≠ none) := by
  have hXlast : (a ++ '/' :: '/' :: b).getLast? ≠ some '/' := by
    rw [List.getLast?_append]
    cases b with
    | nil => exact absurd rfl hb
    | cons d ds =>
      rw [List.getLast?_cons_cons, List.getLast?_cons_cons,
        List.getLast?_eq_getLast_of_ne_nil (List.cons_ne_nil d ds)]
      simp only [Option.or_some]
      intro hcontra
      injection hcontra with hcontra
      exact hsb (hcontra ▸ List.getLast_mem (List.cons_ne_nil d ds))
  have hstrip_eq : stripSlash e.name.toList = a ++ '/' :: '/' :: b := by
    rw [hname]
    unfold stripSlash
    rw [List.cons_append, lstrip_cons_slash]
    cases a with
    | nil => exact absurd rfl ha
    | cons c as =>
      have hc : c ≠ '/' := fun hh => hsa (hh ▸ List.mem_cons_self c as)
      have hshape : ((c :: as) ++ '/' :: '/' :: b) ++ ['/'] =
          c :: ((as ++ '/' :: '/' :: b) ++ ['/']) := by simp
      rw [hshape, lstrip_of_head_ne c _ hc, ← hshape, rstrip_append_slash,
        rstrip_of_getLast_ne _ hXlast]
  have hsplit_eq : splitSlash (stripSlash e.name.toList) = [a, [], b] := by
    rw [hstrip_eq]
    have hshape : a ++ '/' :: '/' :: b = a ++ '/' :: ('/' :: b) := rfl
    rw [hshape, splitSlash_append_slash, splitSlash_single a hsa,
      splitSlash_cons_slash, splitSlash_single b hsb]
    rfl
  have hskip : ¬(e.name = "." ∨ e.name = "./" ∨ e.name = "") := by
    rintro (h | h | h) <;> rw [h] at hname
    · have : ('.' : Char) :: [] = '/' :: ((a ++ '/' :: '/' :: b) ++ ['/']) := by
        rw [← List.cons_append]; exact hname
      injection this with h1 _
      exact absurd h1 (by decide)
    · have : ('.' : Char) :: ['/'] = '/' :: ((a ++ '/' :: '/' :: b) ++ ['/']) := by
        rw [← List.cons_append]; exact hname
      injection this with h1 _
      exact absurd h1 (by decide)
    · have : ([] : List Char) = '/' :: ((a ++ '/' :: '/' :: b) ++ ['/']) := by
        rw [← List.cons_append]; exact hname
      exact (List.cons_ne_nil _ _ this.symm)
  have hstrip_ne : stripSlash e.name.toList ≠ [] := by
    rw [hstrip_eq]
    cases a with
    | nil => exact absurd rfl ha
    | cons c as => simp
  have hload : load_tar (es ++ [e]) = loadEntry (load_tar es) e := by
    unfold load_tar
    rw [List.foldl_append]
    simp only [List.foldl_cons, List.foldl_nil]
  have hmain := loadEntry_lookup (load_tar es) e hskip hstrip_ne
  have hlastq : (splitSlash (stripSlash e.name.toList)).getLast? = some b := by
    rw [hsplit_eq]; rfl
  have hlast_eq : (splitSlash (stripSlash e.name.toList)).getLast
      (splitSlash_ne_nil _) = b := by
    rw [List.getLast?_eq_getLast_of_ne_nil (splitSlash_ne_nil _)] at hlastq
    injection hlastq
  rw [hlast_eq, hsplit_eq] at hmain
  constructor
  · rw [hload]; exact hmain
  · rw [hload]
    rw [lookupPath_cons] at hmain
    cases hc1 : chGet (loadEntry (load_tar es) e).children (String.mk a) with
    | none => rw [hc1] at hmain; cases hmain
    | some m =>
      rw [hc1] at hmain
      dsimp only at hmain
      refine ⟨m, by rw [lookupPath_cons, hc1]; rfl, ?_⟩
      rw [lookupPath_cons] at hmain
      cases hc2 : chGet m.children (String.mk []) with
      | none => rw [hc2] at hmain; cases hmain
      | some m2 =>
        intro hcontra
        exact Option.noConfusion hcontra

/-- Witness for the amended C3. -/
theorem load_tar_empty_segment_nodes_witness :
    lookupPath (load_tar ([] ++ [⟨"/a//b/", false, some "x"⟩])) [['a'], [], ['b']] =
      some (VFile.mk "b" false .nil "x") :=
  ((load_tar_empty_segment_nodes [] ⟨"/a//b/", false, some "x"⟩ ['a'] ['b']
    (by decide) (by decide) (by decide) (by decide) (by decide)).1).trans (by decide)

/-! ## Claims about read_tail and change_dir failure -/

theorem pyLastSlice_zero (l : List String) : pyLastSlice l 0 = l := by
  simp [pyLastSlice]

theorem pyLastSlice_ge (l : List String) (N : Int) (h : (l.length : Int) ≤ N) :
    pyLastSlice l N = l := by
  unfold pyLastSlice
  simp only [neg_neg]
  by_cases hneg : -N < 0
  · rw [if_pos hneg]
    have hz : l.length - N.toNat = 0 := by omega
    rw [hz, List.drop_zero]
  · rw [if_neg hneg]
    have hN0 : N = 0 := by omega
    subst hN0
    simp

theorem pyLastSlice_neg (l : List String) (k : Nat) :
    pyLastSlice l (-(k : Int)) = l.drop k := by
  unfold pyLastSlice
  simp only [neg_neg]
  rw [if_neg (by simp), Int.toNat_natCast]
  rcases le_total k l.length with h | h
  · rw [min_eq_left h]
  · rw [min_eq_right h, List.drop_eq_nil_of_le h, List.drop_eq_nil_of_le (le_refl _)]

/-- C1 is false as stated: `read_tail` with a negative line count drops
leading lines instead of returning the full content (the slice
`content_lines[-lines:]` becomes `content_lines[k:]` for `lines = -k`),
and with line count 0 the result differs from the full content whenever
the content ends in a line terminator. -/
theorem c1_counterexample :
    read_tail (initFS [⟨"f", false, some "a\nb\nc"⟩]) "/f" (-1) = some "b\nc" ∧
    ("b\nc" : String) ≠ "a\nb\nc" ∧
    read_tail (initFS [⟨"g", false, some "a\n"⟩]) "/g" 0 = some "a" ∧
    ("a" : String) ≠ "a\n" :=
  ⟨by decide, by decide, by decide, by decide⟩

/-- C1 (amended): for every resolved File node, `read_tail` with line
count 0 — and with any count at least the number of lines — returns the
newline-join of all lines of the content (which is the full content
exactly when the content has no trailing line terminator and uses `\n`
endings), while a negative count `-k` returns the join of all lines
except the first `k`. -/
theorem read_tail_boundary (fs : FS) (p : String) (n : VFile)
    (hok : get_nodeR fs p = .ok n) (hfile : n.is_dir = false) :
    read_tail fs p 0 = some (String.intercalate "\n" (splitlines n.content)) ∧
    (∀ N : Int, ((splitlines n.content).length : Int) ≤ N →
      read_tail fs p N = some (String.intercalate "\n" (splitlines n.content))) ∧
    (∀ k : Nat,
      read_tail fs p (-(k : Int)) =
        some (String.intercalate "\n" ((splitlines n.content).drop k))) := by
  have hread : ∀ m : Int, read_tail fs p m =
      some (String.intercalate "\n" (pyLastSlice (splitlines n.content) m)) := by
    intro m
    unfold read_tail
    rw [hok]
    dsimp only
    rw [if_neg (by simp [hfile])]
  refine ⟨?_, ?_, ?_⟩
  · rw [hread 0, pyLastSlice_zero]
  · intro N hN
    rw [hread N, pyLastSlice_ge _ N hN]
  · intro k
    rw [hread _, pyLastSlice_neg]

/-- Witness for the amended C1. -/
theorem read_tail_boundary_witness :
    get_nodeR (initFS [⟨"f", false, some "a\nb\nc"⟩]) "/f" =
      .ok (VFile.mk "f" false .nil "a\nb\nc") ∧
    read_tail (initFS [⟨"f", false, some "a\nb\nc"⟩]) "/f" 0 = some "a\nb\nc" ∧
    read_tail (initFS [⟨"f", false, some "a\nb\nc"⟩]) "/f" 5 = some "a\nb\nc" ∧
    read_tail (initFS [⟨"f", false, some "a\nb\nc"⟩]) "/f" (-2) = some "c" := by
  have h := read_tail_boundary (initFS [⟨"f", false, some "a\nb\nc"⟩]) "/f"
    (VFile.mk "f" false .nil "a\nb\nc") (by decide) (by decide)
  exact ⟨by decide, h.1.trans (by decide),
    (h.2.1 5 (by decide)).trans (by decide), (h.2.2 2).trans (by decide)⟩

/-- C4: a failed `change_dir` (the path does not resolve, or resolves to
a File) returns `False` and leaves the state — in particular the cursor —
exactly as it was; moreover whenever `change_dir` returns `False` the
state is unchanged.  `get_node`, `list_dir` and `read_tail` are pure
functions of the state in this model (they never assign
`self.current_path` in the source), so `change_dir` is the only
operation that can mutate the cursor at all. -/
theorem change_dir_failure_keeps_cursor (fs : FS) (path : String) :
    (get_nodeR fs path = .notFound → change_dir fs path = (false, fs)) ∧
    (∀ n, get_nodeR fs path = .ok n → n.is_dir = false →
      change_dir fs path = (false, fs)) ∧
    ((change_dir fs path).1 = false → (change_dir fs path).2 = fs) := by
  refine ⟨?_, ?_, ?_⟩
  · intro h
    unfold change_dir
    rw [h]
  · intro n h hd
    unfold change_dir
    rw [h]
    dsimp only
    rw [if_neg (by simp [hd])]
  · intro h
    unfold change_dir at h ⊢
    cases hg : get_nodeR fs path with
    | ok n =>
      rw [hg] at h
      dsimp only at h ⊢
      by_cases hd : n.is_dir = true
      · rw [if_pos hd] at h
        simp at h
      · rw [if_neg hd]
    | notFound => rfl
    | diverge => rfl

/-- Witness for C4. -/
theorem change_dir_failure_keeps_cursor_witness :
    get_nodeR (initFS []) "x" = .notFound ∧
    change_dir (initFS []) "x" = (false, initFS []) :=
  ⟨by decide, (change_dir_failure_keeps_cursor (initFS []) "x").1 (by decide)⟩

/-! ## Claim C2: the `..` quirk -/

theorem toList_append (s t : String) : (s ++ t).toList = s.toList ++ t.toList := by
  cases s; cases t; rfl

theorem toList_eq_nil (s : String) (h : s.toList = []) : s = "" := by
  cases s with
  | mk d =>
    cases d with
    | nil => rfl
    | cons c cs => simp [String.toList] at h

theorem isAbs_append (x y : List Char) (hx : x ≠ []) :
    isAbs (x ++ y) = isAbs x := by
  cases x with
  | nil => exact absurd rfl hx
  | cons c l => rfl

theorem walk_eq_ok (root : VFile) (pd : RRes) (cur : Option VFile)
    (ps : List (List Char)) (c : VFile) :
    walk root pd cur ps = .ok c ↔ walkAux root pd cur ps = .cont (some c) := by
  unfold walk
  cases h : walkAux root pd cur ps with
  | cont o => cases o <;> simp
  | failed => simp
  | diverge => simp

theorem walkAux_dotdot_single (root : VFile) (pd : RRes) (c : VFile) :
    walkAux root pd (some c) [['.', '.']] =
      if c = root then .cont (some c)
      else
        match pd with
        | .ok p => .cont (some p)
        | .notFound => .cont (some root)
        | .diverge => .diverge := by
  by_cases h : c = root
  · subst h
    rw [if_pos rfl]
    unfold walkAux
    rw [if_pos rfl, if_pos rfl]
    rfl
  · rw [if_neg h]
    unfold walkAux
    rw [if_pos rfl, if_neg (by simpa using h)]
    cases pd <;> rfl


theorem pd_no_diverge_goodC (fs : FS) (k : Nat) (segs : List (List Char))
    (hk : k = 1 ∨ k = 2) (hsegs : ∀ s ∈ segs, validSeg s ∧ '/' ∉ s)
    (hcur : fs.current_path.toList = List.replicate k '/' ++ joinPieces segs) :
    fs.pd ≠ .diverge := by
  have hpd : FS.pd ⟨fs.root, fs.current_path⟩ =
      walk fs.root .diverge (some fs.root) segs.dropLast :=
    pd_goodC fs.root fs.current_path k segs hk hsegs hcur
  have hfs : fs = ⟨fs.root, fs.current_path⟩ := rfl
  rw [hfs, hpd]
  unfold walk
  have hnd := walkAux_no_diverge fs.root .diverge fs.root segs.dropLast
    (fun s hs => (hsegs s ((List.dropLast_sublist segs).subset hs)).1.2.2)
  cases hw : walkAux fs.root .diverge (some fs.root) segs.dropLast with
  | cont o => cases o <;> simp
  | failed => simp
  | diverge => exact absurd hw hnd

/-- C2: during any resolve, a `..` segment moves to the node denoted by
the directory portion of the Cursor's absolute path string —
`cursorParent fs`, obtained by resolving `dirname(current_path)` — and
not to the parent of the node reached so far in the same call; when the
node reached so far is the (structural) root, `..` is a no-op.  Stated
by appending `/..` to an arbitrary path expression `q` that resolves to
`c`, for a well-formed cursor. -/
theorem dotdot_uses_cursor_dirname (fs : FS) (q : String) (c : VFile)
    (k : Nat) (segs : List (List Char)) (hk : k = 1 ∨ k = 2)
    (hsegs : ∀ s ∈ segs, validSeg s ∧ '/' ∉ s)
    (hcur : fs.current_path.toList = List.replicate k '/' ++ joinPieces segs)
    (hq : q ≠ "") (hok : get_nodeR fs q = .ok c) :
    get_nodeR fs (q ++ "/..") =
      .ok (if c = fs.root then fs.root else cursorParent fs) := by
  have hnd : fs.pd ≠ .diverge := pd_no_diverge_goodC fs k segs hk hsegs hcur
  have hqlist : (q ++ "/..").toList = q.toList ++ '/' :: ['.', '.'] := by
    rw [toList_append]; rfl
  have hqne : q.toList ≠ [] := fun h => hq (toList_eq_nil q h)
  have hdd : ∀ (st : Option VFile) (ps : List (List Char)),
      walkAux fs.root fs.pd st ps = .cont (some c) →
      walk fs.root fs.pd st (ps ++ [['.', '.']]) =
        .ok (if c = fs.root then fs.root else cursorParent fs) := by
    intro st ps hst
    rw [walk_eq_ok, walkAux_append, hst]
    dsimp only
    rw [walkAux_dotdot_single]
    by_cases hcroot : c = fs.root
    · rw [if_pos hcroot, if_pos hcroot, hcroot]
    · rw [if_neg hcroot, if_neg hcroot]
      unfold cursorParent
      cases hpd : fs.pd with
      | ok p => rfl
      | notFound => rfl
      | diverge => exact absurd hpd hnd
  unfold get_nodeR at hok ⊢
  by_cases habs : isAbs q.toList = true
  · rw [if_pos habs] at hok
    rw [hqlist, if_pos (by rw [isAbs_append _ _ hqne]; exact habs)]
    unfold absResolveWith at hok ⊢
    by_cases hlp : lstripSlash q.toList = []
    · rw [if_pos hlp] at hok
      have hceq : c = fs.root := by injection hok with h; exact h.symm
      have hl2 : lstripSlash (q.toList ++ '/' :: ['.', '.']) = ['.', '.'] := by
        unfold lstripSlash at hlp ⊢
        rw [List.dropWhile_append, if_pos (by rw [List.isEmpty_iff]; exact hlp)]
        rfl
      rw [hl2, if_neg (by simp)]
      rw [walk_eq_ok]
      have : splitSlash ['.', '.'] = [['.', '.']] := rfl
      rw [this, walkAux_dotdot_single, if_pos rfl, hceq, if_pos rfl]
    · rw [if_neg hlp] at hok
      rw [lstrip_append_of_ne _ _ hlp, if_neg (by simp [hlp]),
        splitSlash_append_slash]
      have : splitSlash ['.', '.'] = [['.', '.']] := rfl
      rw [this]
      exact hdd (some fs.root) _ ((walk_eq_ok _ _ _ _ _).mp hok)
  · rw [if_neg habs] at hok
    rw [hqlist, if_neg (by rw [isAbs_append _ _ hqne]; exact habs)]
    by_cases hcabs : isAbs fs.current_path.toList = true
    · rw [if_pos hcabs] at hok ⊢
      cases hres : absResolveWith fs.root fs.pd fs.current_path.toList with
      | ok cur =>
        rw [hres] at hok
        dsimp only at hok ⊢
        rw [if_neg hqne] at hok
        rw [if_neg (by simp [hqne]), splitSlash_append_slash]
        have : splitSlash ['.', '.'] = [['.', '.']] := rfl
        rw [this]
        exact hdd (some cur) _ ((walk_eq_ok _ _ _ _ _).mp hok)
      | notFound =>
        rw [hres] at hok
        dsimp only at hok ⊢
        rw [if_neg hqne] at hok
        rw [if_neg (by simp [hqne]), splitSlash_append_slash]
        have : splitSlash ['.', '.'] = [['.', '.']] := rfl
        rw [this]
        exact hdd none _ ((walk_eq_ok _ _ _ _ _).mp hok)
      | diverge =>
        rw [hres] at hok
        cases hok
    · rw [if_neg hcabs] at hok
      cases hok

/-- Witness for C2: with cursor `/a/b`, resolving `x/..` (where `x` is a
child of `/a/b`) lands on the node denoted by `dirname("/a/b") = "/a"`,
not on the parent of the node reached so far. -/
theorem dotdot_uses_cursor_dirname_witness :
    get_nodeR { root := load_tar [⟨"a/b/x/", true, none⟩, ⟨"a/c/", true, none⟩],
                current_path := "/a/b" } ("x" ++ "/..") =
      .ok (if (VFile.mk "x" true .nil "") =
            (load_tar [⟨"a/b/x/", true, none⟩, ⟨"a/c/", true, none⟩])
          then load_tar [⟨"a/b/x/", true, none⟩, ⟨"a/c/", true, none⟩]
          else cursorParent { root := load_tar [⟨"a/b/x/", true, none⟩, ⟨"a/c/", true, none⟩],
                              current_path := "/a/b" }) :=
  dotdot_uses_cursor_dirname _ "x" (VFile.mk "x" true .nil "") 1 [['a'], ['b']]
    (Or.inl rfl) (by decide) (by decide) (by decide) (by decide)

/-! ## Claim C6: listings -/



theorem chGet_wfC (ch : Children) (k : String) (v : VFile)
    (hwf : wfC ch = true) (hget : chGet ch k = some v) : wfV v = true := by
  match ch with
  | .nil => cases hget
  | .cons k' v' rest =>
    rw [chGet] at hget
    rw [wfC, Bool.and_assoc, Bool.and_eq_true] at hwf
    rw [Bool.and_eq_true] at hwf
    by_cases h : k' = k
    · rw [if_pos h] at hget
      injection hget with hget
      exact hget ▸ hwf.2.1
    · rw [if_neg h] at hget
      exact chGet_wfC rest k v hwf.2.2 hget

theorem wfV_children (n : VFile) (h : wfV n = true) : wfC n.children = true := by
  cases n with
  | mk a b ch c => exact h

theorem wfV_reach (r n : VFile) (hwf : wfV r = true) (hr : Reach r n) :
    wfV n = true := by
  induction hr with
  | refl v => exact hwf
  | child r k v m hget _ ih => exact ih (chGet_wfC r.children k v (wfV_children r hwf) hget)

theorem wfC_keys_nodup (ch : Children) (h : wfC ch = true) :
    (chKeys ch).Nodup := by
  match ch with
  | .nil => exact List.nodup_nil
  | .cons k v rest =>
    rw [wfC, Bool.and_assoc, Bool.and_eq_true] at h
    rw [chKeys, List.nodup_cons]
    refine ⟨by simpa using h.1, wfC_keys_nodup rest (Bool.and_eq_true .. ▸ h.2).2⟩

theorem reach_chGet (r c v : VFile) (k : String) (hr : Reach r c)
    (hget : chGet c.children k = some v) : Reach r v := by
  induction hr with
  | refl w => exact Reach.child w k v v hget (Reach.refl v)
  | child r' k' v' m hget' _ ih => exact Reach.child r' k' v' v hget' (ih hget)

theorem walkAux_reach (root : VFile) (pd : RRes)
    (hpd : ∀ p, pd = .ok p → Reach root p) (cur : Option VFile)
    (hcur : ∀ v, cur = some v → Reach root v) (ps : List (List Char)) (v : VFile)
    (h : walkAux root pd cur ps = .cont (some v)) : Reach root v := by
  induction ps generalizing cur with
  | nil =>
    rw [walkAux] at h
    injection h with h
    exact hcur v h
  | cons part rest ih =>
    rw [walkAux.eq_def] at h
    dsimp only at h
    by_cases h1 : part = ['.', '.']
    · rw [if_pos h1] at h
      by_cases h2 : cur = some root
      · rw [if_pos h2] at h
        exact ih cur hcur h
      · rw [if_neg h2] at h
        cases hp : pd with
        | ok p =>
          rw [hp] at h hpd ih
          dsimp only at h
          exact ih (some p)
            (fun w hw => by injection hw with hw; exact hw ▸ hpd p rfl) h
        | notFound =>
          rw [hp] at h ih
          dsimp only at h
          exact ih (some root)
            (fun w hw => by injection hw with hw; exact hw ▸ Reach.refl root) h
        | diverge =>
          rw [hp] at h
          dsimp only at h
          cases h
    · rw [if_neg h1] at h
      by_cases h2 : part = ['.'] ∨ part = []
      · rw [if_pos h2] at h
        exact ih cur hcur h
      · rw [if_neg h2] at h
        cases hc : cur with
        | none => rw [hc] at h; cases h
        | some c =>
          rw [hc] at h
          dsimp only at h
          cases hg : chGet c.children (String.mk part) with
          | none => rw [hg] at h; cases h
          | some nxt =>
            rw [hg] at h
            exact ih (some nxt) (fun w hw => by
              injection hw with hw
              exact hw ▸ reach_chGet root c nxt (String.mk part) (hcur c hc) hg) h

theorem absResolveWith_reach (root : VFile) (pd : RRes)
    (hpd : ∀ p, pd = .ok p → Reach root p) (d : List Char) (v : VFile)
    (h : absResolveWith root pd d = .ok v) : Reach root v := by
  unfold absResolveWith at h
  by_cases hl : lstripSlash d = []
  · rw [if_pos hl] at h
    injection h with h
    exact h ▸ Reach.refl root
  · rw [if_neg hl] at h
    exact walkAux_reach root pd hpd (some root)
      (fun w hw => by injection hw with hw; exact hw ▸ Reach.refl root) _ v
      ((walk_eq_ok _ _ _ _ _).mp h)

theorem pd_reach (fs : FS) (p : VFile) (h : fs.pd = .ok p) : Reach fs.root p := by
  unfold FS.pd at h
  by_cases habs : isAbs (dirname fs.current_path.toList) = true
  · rw [if_pos habs] at h
    exact absResolveWith_reach fs.root .diverge (fun q hq => by cases hq) _ p h
  · rw [if_neg habs] at h
    cases h

theorem get_nodeR_reach (fs : FS) (path : String) (n : VFile)
    (h : get_nodeR fs path = .ok n) : Reach fs.root n := by
  unfold get_nodeR at h
  by_cases habs : isAbs path.toList = true
  · rw [if_pos habs] at h
    exact absResolveWith_reach fs.root fs.pd (pd_reach fs) _ n h
  · rw [if_neg habs] at h
    by_cases hcabs : isAbs fs.current_path.toList = true
    · rw [if_pos hcabs] at h
      cases hres : absResolveWith fs.root fs.pd fs.current_path.toList with
      | ok cur =>
        rw [hres] at h
        dsimp only at h
        have hcur_reach : Reach fs.root cur :=
          absResolveWith_reach fs.root fs.pd (pd_reach fs) _ cur hres
        by_cases hp : path.toList = []
        · rw [if_pos hp] at h
          injection h with h
          exact h ▸ hcur_reach
        · rw [if_neg hp] at h
          exact walkAux_reach fs.root fs.pd (pd_reach fs) (some cur)
            (fun w hw => by injection hw with hw; exact hw ▸ hcur_reach) _ n
            ((walk_eq_ok _ _ _ _ _).mp h)
      | notFound =>
        rw [hres] at h
        dsimp only at h
        by_cases hp : path.toList = []
        · rw [if_pos hp] at h; cases h
        · rw [if_neg hp] at h
          exact walkAux_reach fs.root fs.pd (pd_reach fs) none
            (fun w hw => by cases hw) _ n ((walk_eq_ok _ _ _ _ _).mp h)
      | diverge => rw [hres] at h; cases h
    · rw [if_neg hcabs] at h
      cases h

theorem chKeys_chSet (ch : Children) (k : String) (v : VFile) :
    chKeys (chSet ch k v) =
      if k ∈ chKeys ch then chKeys ch else chKeys ch ++ [k] := by
  match ch with
  | .nil => simp [chSet, chKeys]
  | .cons k' v' rest =>
    by_cases h : k' = k
    · subst h
      simp [chSet, chKeys]
    · rw [chSet, if_neg h, chKeys, chKeys, chKeys_chSet rest k v]
      by_cases hm : k ∈ chKeys rest
      · rw [if_pos hm, if_pos (List.mem_cons_of_mem _ hm)]
      · rw [if_neg hm, if_neg (by
          rw [List.mem_cons]
          rintro (hh | hh)
          · exact h hh.symm
          · exact hm hh)]
        rfl

theorem wfC_chSet (ch : Children) (k : String) (v : VFile)
    (hch : wfC ch = true) (hv : wfV v = true) : wfC (chSet ch k v) = true := by
  match ch with
  | .nil => simp [chSet, wfC, chKeys, hv]
  | .cons k' v' rest =>
    rw [wfC, Bool.and_assoc, Bool.and_eq_true, Bool.and_eq_true] at hch
    by_cases h : k' = k
    · subst h
      rw [chSet, if_pos rfl, wfC, Bool.and_assoc]
      simp only [Bool.and_eq_true]
      exact ⟨hch.1, hv, hch.2.2⟩
    · rw [chSet, if_neg h, wfC, Bool.and_assoc]
      simp only [Bool.and_eq_true]
      refine ⟨?_, hch.2.1, wfC_chSet rest k v hch.2.2 hv⟩
      rw [chKeys_chSet]
      by_cases hm : k ∈ chKeys rest
      · rw [if_pos hm]; exact hch.1
      · rw [if_neg hm]
        have h1 : k' ∉ chKeys rest := by simpa using hch.1
        simp only [decide_eq_true_eq, List.mem_append, List.mem_singleton]
        rintro (hh | hh)
        · exact h1 hh
        · exact h hh

theorem wfV_entryLeaf (e : TarEntry) (last : String) :
    wfV (entryLeaf e last) = true := by
  unfold entryLeaf
  split <;> rfl

theorem wfV_insertAt (node : VFile) (e : TarEntry) (parts : List (List Char))
    (hwf : wfV node = true) : wfV (insertAt node e parts) = true := by
  induction parts generalizing node with
  | nil => exact hwf
  | cons part rest ih =>
    cases rest with
    | nil =>
      cases node with
      | mk n d ch c =>
        exact wfC_chSet ch _ _ hwf (wfV_entryLeaf e _)
    | cons r rs =>
      cases node with
      | mk n d ch c =>
        have hchild : wfV (match chGet ch (String.mk part) with
            | some v => v
            | none => VFile.mk (String.mk part) true .nil "") = true := by
          cases hg : chGet ch (String.mk part) with
          | some v => exact chGet_wfC ch _ v hwf hg
          | none => rfl
        exact wfC_chSet ch _ _ hwf (ih _ hchild)

theorem wfV_loadEntry (t : VFile) (e : TarEntry) (hwf : wfV t = true) :
    wfV (loadEntry t e) = true := by
  unfold loadEntry
  split
  · exact hwf
  · dsimp only
    split
    · exact hwf
    · exact wfV_insertAt t e _ hwf

theorem wfV_load_tar (entries : List TarEntry) : wfV (load_tar entries) = true := by
  unfold load_tar
  suffices h : ∀ (acc : VFile), wfV acc = true →
      wfV (entries.foldl loadEntry acc) = true by
    exact h _ rfl
  induction entries with
  | nil => intro acc h; exact h
  | cons e rest ih =>
    intro acc h
    exact ih _ (wfV_loadEntry acc e h)



theorem sortedStr_sorted (l : List String) :
    (sortedStr l).Sorted (· ≤ ·) := by
  have h := List.sorted_insertionSort (fun a b : String => a.toList ≤ b.toList) l
  exact h.imp (fun hab => String.le_iff_toList_le.mpr hab)

theorem sortedStr_perm (l : List String) : (sortedStr l).Perm l :=
  List.perm_insertionSort _ l

/-- C6: `list_dir` returns the resolved Directory's child names sorted
lexicographically ascending (Python string order = code-point order) with
no duplicate names, and returns the NotFound signal whenever the path
resolves to a File or does not resolve at all. -/
theorem list_dir_sorted_nodup (fs : FS) (path : String)
    (hwf : wfV fs.root = true) :
    (∀ n, get_nodeR fs path = .ok n → n.is_dir = true →
      list_dir fs path = some (sortedStr (chKeys n.children)) ∧
      (sortedStr (chKeys n.children)).Sorted (· ≤ ·) ∧
      (sortedStr (chKeys n.children)).Nodup) ∧
    (∀ n, get_nodeR fs path = .ok n → n.is_dir = false →
      list_dir fs path = none) ∧
    (get_nodeR fs path = .notFound → list_dir fs path = none) := by
  refine ⟨?_, ?_, ?_⟩
  · intro n hok hdir
    refine ⟨?_, sortedStr_sorted _, ?_⟩
    · unfold list_dir
      rw [hok]
      dsimp only
      rw [if_pos hdir]
    · have hreach := get_nodeR_reach fs path n hok
      have hwfn := wfV_reach fs.root n hwf hreach
      exact (sortedStr_perm _).nodup_iff.mpr
        (wfC_keys_nodup n.children (wfV_children n hwfn))
  · intro n hok hdir
    unfold list_dir
    rw [hok]
    dsimp only
    rw [if_neg (by simp [hdir])]
  · intro hnf
    unfold list_dir
    rw [hnf]

/-- Witness for C6 on the spec's own scenario tree. -/
theorem list_dir_sorted_nodup_witness :
    list_dir (initFS [⟨"dir1/file1.txt", false, some "x"⟩, ⟨"a/", true, none⟩])
        "/" = some ["a", "dir1"] ∧
    list_dir (initFS [⟨"dir1/file1.txt", false, some "x"⟩, ⟨"a/", true, none⟩])
        "/dir1/file1.txt" = none := by
  constructor
  · have h := (list_dir_sorted_nodup
      (initFS [⟨"dir1/file1.txt", false, some "x"⟩, ⟨"a/", true, none⟩]) "/"
      (by decide)).1 ((initFS [⟨"dir1/file1.txt", false, some "x"⟩,
        ⟨"a/", true, none⟩]).root) (by decide) (by decide)
    exact h.1.trans (by decide)
  · exact (list_dir_sorted_nodup
      (initFS [⟨"dir1/file1.txt", false, some "x"⟩, ⟨"a/", true, none⟩])
      "/dir1/file1.txt" (by decide)).2.1
      (VFile.mk "file1.txt" false .nil "x") (by decide) (by decide)

/-! ## Claim C5: what the stored cursor denotes after a successful cd -/

theorem walkAux_filter (root : VFile) (pd : RRes) (cur : Option VFile)
    (ps : List (List Char)) :
    walkAux root pd cur ps = walkAux root pd cur (ps.filter keepSeg) := by
  induction ps generalizing cur with
  | nil => rfl
  | cons part rest ih =>
    by_cases hskip : part = ['.'] ∨ part = []
    · rw [walkAux_skip_head root pd cur part rest hskip, List.filter_cons,
        keepSeg_eq_false part hskip.symm]
      simp only [Bool.false_eq_true, if_false]
      exact ih cur
    · push_neg at hskip
      have hkeep : keepSeg part = true := keepSeg_eq_true part hskip.2 hskip.1
      rw [List.filter_cons, hkeep]
      simp only [if_true]
      rw [walkAux.eq_def, walkAux.eq_def]
      dsimp only
      by_cases h1 : part = ['.', '.']
      · rw [if_pos h1, if_pos h1]
        by_cases h2 : cur = some root
        · rw [if_pos h2, if_pos h2]; exact ih cur
        · rw [if_neg h2, if_neg h2]
          cases pd with
          | ok p => exact ih (some p)
          | notFound => exact ih (some root)
          | diverge => rfl
      · rw [if_neg h1, if_neg h1,
          if_neg (by rintro (h | h) <;> [exact hskip.1 h; exact hskip.2 h]),
          if_neg (by rintro (h | h) <;> [exact hskip.1 h; exact hskip.2 h])]
        cases cur with
        | none => rfl
        | some c =>
          dsimp only
          cases chGet c.children (String.mk part) with
          | none => rfl
          | some nxt => exact ih (some nxt)

theorem walkAux_none_no_ok (root : VFile) (pd : RRes) (ps : List (List Char))
    (hnd : ∀ s ∈ ps, s ≠ ['.', '.']) (v : VFile) :
    walkAux root pd none ps ≠ .cont (some v) := by
  induction ps with
  | nil => simp [walkAux]
  | cons part rest ih =>
    have hp : part ≠ ['.', '.'] := hnd part (List.mem_cons_self part rest)
    have hr : ∀ s ∈ rest, s ≠ ['.', '.'] := fun s hs => hnd s (List.mem_cons_of_mem part hs)
    rw [walkAux.eq_def]
    dsimp only
    rw [if_neg hp]
    by_cases h2 : part = ['.'] ∨ part = []
    · rw [if_pos h2]; exact ih hr
    · rw [if_neg h2]; simp

theorem splitSlash_eq_repl_lstrip (p : List Char) :
    ∃ j, splitSlash p = List.replicate j [] ++ splitSlash (lstripSlash p) := by
  induction p with
  | nil => exact ⟨0, rfl⟩
  | cons c rest ih =>
    by_cases hc : c = '/'
    · subst hc
      obtain ⟨j, hj⟩ := ih
      exact ⟨j + 1, by
        rw [splitSlash_cons_slash, lstrip_cons_slash, hj, List.replicate_succ,
          List.cons_append]⟩
    · exact ⟨0, by rw [lstrip_of_head_ne c rest hc]; rfl⟩

theorem filter_keepSeg_repl (j : Nat) (xs : List (List Char)) :
    (List.replicate j ([] : List Char) ++ xs).filter keepSeg = xs.filter keepSeg := by
  induction j with
  | zero => rfl
  | succ m ih =>
    rw [List.replicate_succ, List.cons_append, List.filter_cons,
      keepSeg_eq_false [] (Or.inl rfl)]
    simpa using ih

theorem initSlashes_abs (p : List Char) (h : isAbs p = true) :
    initSlashes p = 1 ∨ initSlashes p = 2 := by
  unfold initSlashes
  rw [if_pos h]
  by_cases h2 : p.take 2 = ['/', '/'] ∧ p.take 3 ≠ ['/', '/', '/']
  · rw [if_pos h2]; exact Or.inr rfl
  · rw [if_neg h2]; exact Or.inl rfl

theorem getLast_replicate_slash (k : Nat) (hk : k ≠ 0) :
    (List.replicate k '/').getLast? = some '/' := by
  cases k with
  | zero => exact absurd rfl hk
  | succ m =>
    have : List.replicate (m + 1) '/' = List.replicate m '/' ++ ['/'] := by
      rw [← List.replicate_succ' m '/']
    rw [this, List.getLast?_concat]

theorem walkAux_repl_empty (root : VFile) (pd : RRes) (cur : Option VFile)
    (j : Nat) (xs : List (List Char)) :
    walkAux root pd cur (List.replicate j [] ++ xs) = walkAux root pd cur xs := by
  induction j with
  | zero => rfl
  | succ m ih =>
    rw [List.replicate_succ, List.cons_append,
      walkAux_skip_head root pd cur [] _ (Or.inr rfl), ih]

theorem filter_keepSeg_of_valid (segs : List (List Char))
    (h : ∀ s ∈ segs, validSeg s) : segs.filter keepSeg = segs :=
  List.filter_eq_self.mpr (fun s hs => keepSeg_eq_true s (h s hs).1 (h s hs).2.1)

theorem isAbs_false_head (p : List Char) (h : isAbs p = false) :
    ∀ c cs, p = c :: cs → c ≠ '/' := by
  intro c cs hp hcc
  subst hp
  subst hcc
  simp [isAbs] at h

theorem isAbs_ne_nil (p : List Char) (h : isAbs p = true) : p ≠ [] := by
  intro hp
  subst hp
  simp [isAbs] at h

theorem repl_join_getLast (k : Nat) (segs : List (List Char))
    (hsegs : ∀ s ∈ segs, validSeg s ∧ '/' ∉ s) (hne : segs ≠ []) :
    (List.replicate k '/' ++ joinPieces segs).getLast? ≠ some '/' := by
  have hjne : joinPieces segs ≠ [] :=
    joinPieces_ne_nil segs hne (fun t ht => (hsegs t ht).1)
  rw [List.getLast?_append, List.getLast?_eq_getLast_of_ne_nil hjne]
  simp only [Option.or_some]
  intro hcontra
  apply joinPieces_getLast_ne_slash segs hne hsegs
  rw [List.getLast?_eq_getLast_of_ne_nil hjne]
  exact hcontra

theorem joinPieces_head_shape (segs : List (List Char)) (hne : segs ≠ [])
    (h : ∀ s ∈ segs, validSeg s ∧ '/' ∉ s) :
    ∃ c cs, joinPieces segs = c :: cs ∧ c ≠ '/' := by
  cases hj : joinPieces segs with
  | nil => exact absurd hj (joinPieces_ne_nil segs hne (fun t ht => (h t ht).1))
  | cons c cs => exact ⟨c, cs, rfl, joinPieces_head_ne_slash segs hne h c cs hj⟩

theorem change_dir_eval_ok (fs : FS) (path : String) (n : VFile)
    (hok : get_nodeR fs path = .ok n) (hdir : n.is_dir = true)
    (np : List Char)
    (hnp : (if isAbs path.toList = true then normpath path.toList
            else normpath (joinPath fs.current_path.toList path.toList)) = np)
    (habs : isAbs np = true) :
    change_dir fs path = (true, ⟨fs.root, String.mk np⟩) := by
  unfold change_dir
  rw [hok]
  dsimp only
  rw [if_pos hdir, hnp, if_pos habs]

theorem resolve_built_cursor (root : VFile) (pdOld : RRes) (k' : Nat)
    (hk' : k' = 1 ∨ k' = 2) (fsegs : List (List Char))
    (hf : ∀ s ∈ fsegs, validSeg s ∧ '/' ∉ s) (n : VFile)
    (hw : walkAux root pdOld (some root) fsegs = .cont (some n)) :
    get_nodeR ⟨root, String.mk (List.replicate k' '/' ++ joinPieces fsegs)⟩
      (String.mk (List.replicate k' '/' ++ joinPieces fsegs)) = .ok n := by
  have hk0 : k' ≠ 0 := by rcases hk' with rfl | rfl <;> simp
  unfold get_nodeR
  have htl : (String.mk (List.replicate k' '/' ++ joinPieces fsegs)).toList =
      List.replicate k' '/' ++ joinPieces fsegs := rfl
  rw [htl, if_pos (isAbs_repl_append k' hk0 _),
    absResolveWith_repl_join root _ k' fsegs hf, walk_eq_ok,
    walkAux_pd_irrel root _ pdOld _ fsegs (fun s hs => (hf s hs).1.2.2)]
  exact hw

/-- C5 is false as stated: from cursor `/a`, `change_dir("b/../c")`
succeeds (the quirky resolve validates `/c`, a Directory) but stores
cursor `/a/c` — computed by `normpath`, with standard `..` semantics —
which resolves to nothing at all, let alone to the validated node. -/
theorem c5_counterexample :
    (change_dir (initFS [⟨"a/b/", true, none⟩, ⟨"c/", true, none⟩]) "a").1
      = true ∧
    (change_dir (initFS [⟨"a/b/", true, none⟩, ⟨"c/", true, none⟩]) "a").2.current_path
      = "/a" ∧
    get_nodeR (change_dir (initFS [⟨"a/b/", true, none⟩, ⟨"c/", true, none⟩]) "a").2
        "b/../c" = .ok (VFile.mk "c" true .nil "") ∧
    (change_dir (change_dir (initFS [⟨"a/b/", true, none⟩, ⟨"c/", true, none⟩]) "a").2
        "b/../c").1 = true ∧
    (change_dir (change_dir (initFS [⟨"a/b/", true, none⟩, ⟨"c/", true, none⟩]) "a").2
        "b/../c").2.current_path = "/a/c" ∧
    get_nodeR (change_dir (change_dir (initFS [⟨"a/b/", true, none⟩, ⟨"c/", true, none⟩]) "a").2
        "b/../c").2 "/a/c" = .notFound :=
  ⟨by decide, by decide, by decide, by decide, by decide, by decide⟩

/-- C5 (amended): after every successful `change_dir` whose path
contains no `..` segment, starting from a well-formed cursor, the stored
Cursor is an absolute normalized path (well-formed again, so the
property is an invariant over `..`-free operation sequences from the
initial cursor `/`), the tree is untouched, and resolving the stored
Cursor yields exactly the Directory node that the call validated. -/
theorem change_dir_no_dotdot_invariant (fs : FS) (path : String) (n : VFile)
    (k : Nat) (segs : List (List Char)) (hk : k = 1 ∨ k = 2)
    (hsegs : ∀ s ∈ segs, validSeg s ∧ '/' ∉ s)
    (hcur : fs.current_path.toList = List.replicate k '/' ++ joinPieces segs)
    (hnd : ∀ s ∈ splitSlash path.toList, s ≠ ['.', '.'])
    (hok : get_nodeR fs path = .ok n) (hdir : n.is_dir = true) :
    (change_dir fs path).1 = true ∧
    (change_dir fs path).2.root = fs.root ∧
    (∃ k' segs', (k' = 1 ∨ k' = 2) ∧ (∀ s ∈ segs', validSeg s ∧ '/' ∉ s) ∧
      (change_dir fs path).2.current_path.toList =
        List.replicate k' '/' ++ joinPieces segs') ∧
    get_nodeR (change_dir fs path).2 (change_dir fs path).2.current_path =
      .ok n := by
  have hk0 : k ≠ 0 := by rcases hk with rfl | rfl <;> simp
  have main : ∃ (k' : Nat) (fsegs : List (List Char)),
      (k' = 1 ∨ k' = 2) ∧ (∀ s ∈ fsegs, validSeg s ∧ '/' ∉ s) ∧
      (if isAbs path.toList = true then normpath path.toList
        else normpath (joinPath fs.current_path.toList path.toList)) =
        List.replicate k' '/' ++ joinPieces fsegs ∧
      walkAux fs.root fs.pd (some fs.root) fsegs = .cont (some n) := by
    by_cases habs : isAbs path.toList = true
    · -- absolute path
      have hpn : path.toList ≠ [] := isAbs_ne_nil _ habs
      refine ⟨initSlashes path.toList, (splitSlash path.toList).filter keepSeg,
        initSlashes_abs _ habs, ?_, ?_, ?_⟩
      · intro s hs
        exact ⟨filter_keepSeg_no_dotdot _ hnd s hs,
          no_slash_of_mem_splitSlash path.toList s (List.mem_filter.mp hs).1⟩
      · rw [if_pos habs]
        exact normpath_no_dotdot path.toList hpn hnd _ rfl (by
          rcases initSlashes_abs _ habs with h | h <;> rw [h] <;> simp)
      · have hokA : absResolveWith fs.root fs.pd path.toList = .ok n := by
          unfold get_nodeR at hok
          rw [if_pos habs] at hok
          exact hok
        rw [← walkAux_filter]
        obtain ⟨j, hj⟩ := splitSlash_eq_repl_lstrip path.toList
        rw [hj, walkAux_repl_empty]
        unfold absResolveWith at hokA
        by_cases hl : lstripSlash path.toList = []
        · rw [if_pos hl] at hokA
          have hn : fs.root = n := by injection hokA with h
          rw [hl, show splitSlash [] = [[]] from rfl,
            walkAux_skip_head fs.root fs.pd _ [] [] (Or.inr rfl),
            show walkAux fs.root fs.pd (some fs.root) [] =
              .cont (some fs.root) from rfl, hn]
        · rw [if_neg hl] at hokA
          exact (walk_eq_ok _ _ _ _ _).mp hokA
    · -- relative path
      have hcabs : isAbs fs.current_path.toList = true := by
        rw [hcur]; exact isAbs_repl_append k hk0 _
      unfold get_nodeR at hok
      rw [if_neg habs, if_pos hcabs] at hok
      have hcurres : absResolveWith fs.root fs.pd fs.current_path.toList =
          walk fs.root fs.pd (some fs.root) segs := by
        rw [hcur]; exact absResolveWith_repl_join _ _ k segs hsegs
      rw [hcurres] at hok
      cases hw : walkAux fs.root fs.pd (some fs.root) segs with
      | cont o =>
        cases o with
        | none => exact absurd hw (walkAux_ne_cont_none _ _ _ _)
        | some cur =>
          rw [(walk_eq_ok _ _ _ _ _).mpr hw] at hok
          dsimp only at hok
          have hcont : walkAux fs.root fs.pd (some cur)
              ((splitSlash path.toList).filter keepSeg) = .cont (some n) := by
            by_cases hpe : path.toList = []
            · rw [if_pos hpe] at hok
              have hcn : cur = n := RRes.ok.inj hok
              rw [hpe]
              rw [show splitSlash [] = [[]] from rfl, List.filter_cons,
                keepSeg_eq_false [] (Or.inl rfl)]
              simp only [Bool.false_eq_true, if_false, List.filter_nil]
              rw [walkAux, hcn]
            · rw [if_neg hpe] at hok
              rw [← walkAux_filter]
              exact (walk_eq_ok _ _ _ _ _).mp hok
          have hphead : ∀ c cs, path.toList = c :: cs → c ≠ '/' :=
            isAbs_false_head _ (by simpa using habs)
          rcases List.eq_nil_or_concat segs with rfl | ⟨cs, last, hconcat⟩
          · -- cursor is all slashes: join appends without separator
            have hculast : fs.current_path.toList.getLast? = some '/' := by
              rw [hcur]
              have : joinPieces ([] : List (List Char)) = [] := rfl
              rw [this, List.append_nil]
              exact getLast_replicate_slash k hk0
            have hjoin : joinPath fs.current_path.toList path.toList =
                List.replicate k '/' ++ path.toList := by
              unfold joinPath
              rw [if_neg (by simpa using habs), if_pos (Or.inr hculast), hcur]
              have : joinPieces ([] : List (List Char)) = [] := rfl
              rw [this, List.append_nil]
            have hcurroot : cur = fs.root := by
              rw [walkAux] at hw
              injection hw with h
              injection h with h
              exact h.symm
            refine ⟨k, (splitSlash path.toList).filter keepSeg, hk, ?vs, ?np, ?wk⟩
            case vs =>
              intro s hs
              exact ⟨filter_keepSeg_no_dotdot _ hnd s hs,
                no_slash_of_mem_splitSlash path.toList s (List.mem_filter.mp hs).1⟩
            case np =>
              have hinit : initSlashes (List.replicate k '/' ++ path.toList) = k :=
                initSlashes_repl k hk path.toList hphead
              have hjne : List.replicate k '/' ++ path.toList ≠ [] := by
                rcases hk with rfl | rfl <;> simp
              have hnodd2 : ∀ s ∈ splitSlash (List.replicate k '/' ++ path.toList),
                  s ≠ ['.', '.'] := by
                intro s hs
                rw [splitSlash_repl_append] at hs
                rcases List.mem_append.mp hs with h | h
                · rw [List.eq_of_mem_replicate h]; simp
                · exact hnd s h
              rw [if_neg habs, hjoin, normpath_no_dotdot _ hjne hnodd2 k hinit hk0,
                splitSlash_repl_append, filter_keepSeg_repl]
            case wk =>
              rw [show (some fs.root : Option VFile) = some cur from by
                rw [hcurroot]]
              exact hcont
          · -- cursor has at least one segment
            have hcsne : segs ≠ [] := by
              rw [hconcat]; simp
            have hculast : fs.current_path.toList.getLast? ≠ some '/' := by
              rw [hcur]
              exact repl_join_getLast k segs hsegs hcsne
            have hcne : fs.current_path.toList ≠ [] := by
              rw [hcur]
              intro hcontra
              rcases List.append_eq_nil.mp hcontra with ⟨h1, _⟩
              exact hk0 (by simpa using congrArg List.length h1)
            have hjoin : joinPath fs.current_path.toList path.toList =
                (List.replicate k '/' ++ joinPieces segs) ++ '/' :: path.toList := by
              unfold joinPath
              rw [if_neg (by simpa using habs),
                if_neg (by rintro (h | h); exact hcne h; exact hculast h), hcur]
            obtain ⟨c0, cs0, hj0, hc0⟩ := joinPieces_head_shape segs hcsne hsegs
            have hinit : initSlashes (joinPath fs.current_path.toList path.toList)
                = k := by
              rw [hjoin]
              have hassoc : (List.replicate k '/' ++ joinPieces segs) ++
                  '/' :: path.toList =
                  List.replicate k '/' ++ (joinPieces segs ++ '/' :: path.toList) := by
                simp
              rw [hassoc]
              refine initSlashes_repl k hk _ ?_
              intro c cs hcc
              rw [hj0, List.cons_append] at hcc
              injection hcc with h1 _
              exact h1 ▸ hc0
            have hcomps : splitSlash (joinPath fs.current_path.toList path.toList) =
                (List.replicate k [] ++ segs) ++ splitSlash path.toList := by
              rw [hjoin, splitSlash_append_slash, splitSlash_repl_append,
                splitSlash_joinPieces segs hcsne (fun t ht => (hsegs t ht).2)]
            have hfilter :
                (splitSlash (joinPath fs.current_path.toList path.toList)).filter
                    keepSeg =
                  segs ++ (splitSlash path.toList).filter keepSeg := by
              rw [hcomps, List.filter_append, filter_keepSeg_repl,
                filter_keepSeg_of_valid segs (fun t ht => (hsegs t ht).1)]
            have hnodd : ∀ s ∈ splitSlash
                (joinPath fs.current_path.toList path.toList), s ≠ ['.', '.'] := by
              intro s hs
              rw [hcomps] at hs
              rcases List.mem_append.mp hs with h | h
              · rcases List.mem_append.mp h with h2 | h2
                · rw [List.eq_of_mem_replicate h2]; simp
                · exact (hsegs s h2).1.2.2
              · exact hnd s h
            have hjne : joinPath fs.current_path.toList path.toList ≠ [] := by
              rw [hjoin]
              simp
            refine ⟨k, segs ++ (splitSlash path.toList).filter keepSeg, hk,
              ?vs, ?np, ?wk⟩
            case vs =>
              intro s hs
              rcases List.mem_append.mp hs with h | h
              · exact hsegs s h
              · exact ⟨filter_keepSeg_no_dotdot _ hnd s (by exact h),
                  no_slash_of_mem_splitSlash path.toList s (List.mem_filter.mp h).1⟩
            case np =>
              rw [if_neg habs, normpath_no_dotdot _ hjne hnodd k hinit hk0, hfilter]
            case wk =>
              rw [walkAux_append, hw]
              dsimp only
              exact hcont
      | failed =>
        rw [show walk fs.root fs.pd (some fs.root) segs = .notFound by
          unfold walk; rw [hw]] at hok
        dsimp only at hok
        by_cases hpe : path.toList = []
        · rw [if_pos hpe] at hok; cases hok
        · rw [if_neg hpe] at hok
          exact absurd ((walk_eq_ok _ _ _ _ _).mp hok)
            (walkAux_none_no_ok fs.root fs.pd _ hnd n)
      | diverge =>
        exact absurd hw (walkAux_no_diverge fs.root fs.pd fs.root segs
          (fun s hs => (hsegs s hs).1.2.2))
  obtain ⟨k', fsegs, hk', hfsegs, hnp, hwalk⟩ := main
  have hcd := change_dir_eval_ok fs path n hok hdir _ hnp
    (isAbs_repl_append k' (by rcases hk' with rfl | rfl <;> simp) _)
  refine ⟨by rw [hcd], by rw [hcd], ⟨k', fsegs, hk', hfsegs, by rw [hcd]; rfl⟩, ?_⟩
  rw [hcd]
  exact resolve_built_cursor fs.root fs.pd k' hk' fsegs hfsegs n hwalk

/-- Witness for the amended C5. -/
theorem change_dir_no_dotdot_invariant_witness :
    (change_dir (initFS [⟨"a/b/", true, none⟩]) "a/b").1 = true ∧
    (change_dir (initFS [⟨"a/b/", true, none⟩]) "a/b").2.current_path = "/a/b" ∧
    get_nodeR (change_dir (initFS [⟨"a/b/", true, none⟩]) "a/b").2 "/a/b" =
      .ok (VFile.mk "b" true .nil "") := by
  have h := change_dir_no_dotdot_invariant (initFS [⟨"a/b/", true, none⟩]) "a/b"
    (VFile.mk "b" true .nil "") 1 [] (Or.inl rfl) (by simp) (by decide) (by decide)
    (by decide) (by decide)
  refine ⟨h.1, by decide, ?_⟩
  have h4 := h.2.2.2
  rw [show (change_dir (initFS [⟨"a/b/", true, none⟩]) "a/b").2.current_path
    = "/a/b" from by decide] at h4
  exact h4

/-! ## Claim C8: the cd/cd-dotdot round trip -/

theorem mk_toList (s : String) : String.mk s.toList = s := by
  cases s
  rfl

theorem chGet_sizeOf (ch : Children) (k : String) (v : VFile)
    (h : chGet ch k = some v) : sizeOf v < sizeOf ch := by
  match ch with
  | .nil => cases h
  | .cons k' v' rest =>
    rw [chGet] at h
    by_cases hk : k' = k
    · rw [if_pos hk] at h
      injection h with h
      subst h
      simp only [Children.cons.sizeOf_spec]
      omega
    · rw [if_neg hk] at h
      have := chGet_sizeOf rest k v h
      simp only [Children.cons.sizeOf_spec]
      omega

theorem children_sizeOf (r : VFile) : sizeOf r.children < sizeOf r := by
  cases r with
  | mk a b ch c =>
    simp only [VFile.mk.sizeOf_spec, VFile.children]
    omega

theorem reach_sizeOf (r n : VFile) (h : Reach r n) : sizeOf n ≤ sizeOf r := by
  induction h with
  | refl v => exact le_refl _
  | child r' k v m hget _ ih =>
    have h1 : sizeOf v < sizeOf r'.children := chGet_sizeOf _ _ _ hget
    have h2 : sizeOf r'.children < sizeOf r' := children_sizeOf r'
    omega

theorem child_ne_ancestor (root D s : VFile) (name : String)
    (hreach : Reach root D) (hget : chGet D.children name = some s) :
    s ≠ root := by
  intro hcontra
  subst hcontra
  have h1 : sizeOf s < sizeOf D.children := chGet_sizeOf _ _ _ hget
  have h2 : sizeOf D.children < sizeOf D := children_sizeOf D
  have h3 : sizeOf D ≤ sizeOf s := reach_sizeOf s D hreach
  omega

theorem joinPath_norm_append_seg (C : List Char) (x : List Char) (k : Nat)
    (hk : k = 1 ∨ k = 2) (segs : List (List Char))
    (hsegs : ∀ t ∈ segs, validSeg t ∧ '/' ∉ t)
    (hC : C = List.replicate k '/' ++ joinPieces segs)
    (hxv : validSeg x) (hxs : '/' ∉ x) :
    normpath (joinPath C x) =
      List.replicate k '/' ++ joinPieces (segs ++ [x]) := by
  have hk0 : k ≠ 0 := by rcases hk with rfl | rfl <;> simp
  have hxhead : ∀ c cs, x = c :: cs → c ≠ '/' := by
    intro c cs hcc hslash
    exact hxs (hcc ▸ (hslash ▸ List.mem_cons_self c cs))
  rcases List.eq_nil_or_concat segs with rfl | ⟨cs, last, hconcat⟩
  · have hCrepl : C = List.replicate k '/' := by
      rw [hC, show joinPieces ([] : List (List Char)) = [] from rfl,
        List.append_nil]
    have hjoin : joinPath C x = List.replicate k '/' ++ x := by
      unfold joinPath
      rw [if_neg ?xabs, if_pos (Or.inr (hCrepl ▸ getLast_replicate_slash k hk0)), hCrepl]
      case xabs =>
        cases hx : x with
        | nil => exact absurd hx hxv.1
        | cons c cl => simp [isAbs, hxhead c cl hx]
    rw [hjoin, normpath_no_dotdot _ (by rcases hk with rfl | rfl <;> simp)
      ?nodd k (initSlashes_repl k hk x hxhead) hk0]
    case nodd =>
      intro t ht
      rw [splitSlash_repl_append, splitSlash_single x hxs] at ht
      rcases List.mem_append.mp ht with h | h
      · rw [List.eq_of_mem_replicate h]; simp
      · rw [List.mem_singleton.mp h]; exact hxv.2.2
    rw [splitSlash_repl_append, splitSlash_single x hxs, filter_keepSeg_repl,
      List.filter_cons, keepSeg_eq_true x hxv.1 hxv.2.1]
    rfl
  · have hcsne : segs ≠ [] := by rw [hconcat]; simp
    have hjoin : joinPath C x = C ++ '/' :: x := by
      unfold joinPath
      rw [if_neg ?xabs2, if_neg ?clast]
      case xabs2 =>
        cases hx : x with
        | nil => exact absurd hx hxv.1
        | cons c cl => simp [isAbs, hxhead c cl hx]
      case clast =>
        rintro (h | h)
        · rw [hC] at h
          rcases List.append_eq_nil.mp h with ⟨h1, _⟩
          exact hk0 (by simpa using congrArg List.length h1)
        · rw [hC] at h
          exact repl_join_getLast k segs hsegs hcsne h
    obtain ⟨c0, cs0, hj0, hc0⟩ := joinPieces_head_shape segs hcsne hsegs
    have hinit : initSlashes (C ++ '/' :: x) = k := by
      rw [hC]
      have hassoc : (List.replicate k '/' ++ joinPieces segs) ++ '/' :: x =
          List.replicate k '/' ++ (joinPieces segs ++ '/' :: x) := by simp
      rw [hassoc]
      refine initSlashes_repl k hk _ ?_
      intro c cl hcc
      rw [hj0, List.cons_append] at hcc
      injection hcc with h1 _
      exact h1 ▸ hc0
    have hcomps : splitSlash (C ++ '/' :: x) =
        (List.replicate k [] ++ segs) ++ [x] := by
      rw [hC, splitSlash_append_slash, splitSlash_repl_append,
        splitSlash_joinPieces segs hcsne (fun t ht => (hsegs t ht).2),
        splitSlash_single x hxs]
    rw [hjoin, normpath_no_dotdot _ (by
        rw [hC]
        rcases hk with rfl | rfl <;> simp) ?nodd2 k hinit hk0, hcomps]
    case nodd2 =>
      intro t ht
      rw [hcomps] at ht
      rcases List.mem_append.mp ht with h | h
      · rcases List.mem_append.mp h with h2 | h2
        · rw [List.eq_of_mem_replicate h2]; simp
        · exact (hsegs t h2).1.2.2
      · rw [List.mem_singleton.mp h]; exact hxv.2.2
    rw [List.filter_append, filter_keepSeg_repl,
      filter_keepSeg_of_valid segs (fun t ht => (hsegs t ht).1),
      List.filter_cons, keepSeg_eq_true x hxv.1 hxv.2.1]
    rfl

theorem joinPath_norm_append_dotdot (k : Nat) (hk : k = 1 ∨ k = 2)
    (segs' : List (List Char)) (hsegs' : ∀ t ∈ segs', validSeg t ∧ '/' ∉ t)
    (hne : segs' ≠ []) :
    normpath (joinPath (List.replicate k '/' ++ joinPieces segs') ['.', '.']) =
      List.replicate k '/' ++ joinPieces segs'.dropLast := by
  have hk0 : k ≠ 0 := by rcases hk with rfl | rfl <;> simp
  have hjoin : joinPath (List.replicate k '/' ++ joinPieces segs') ['.', '.'] =
      (List.replicate k '/' ++ joinPieces segs') ++ '/' :: ['.', '.'] := by
    unfold joinPath
    rw [if_neg (by simp [isAbs]), if_neg ?clast3]
    case clast3 =>
      rintro (h | h)
      · rcases List.append_eq_nil.mp h with ⟨h1, _⟩
        exact hk0 (by simpa using congrArg List.length h1)
      · exact repl_join_getLast k segs' hsegs' hne h
  obtain ⟨c0, cs0, hj0, hc0⟩ := joinPieces_head_shape segs' hne hsegs'
  have hinit : initSlashes ((List.replicate k '/' ++ joinPieces segs') ++
      '/' :: ['.', '.']) = k := by
    have hassoc : (List.replicate k '/' ++ joinPieces segs') ++ '/' :: ['.', '.'] =
        List.replicate k '/' ++ (joinPieces segs' ++ '/' :: ['.', '.']) := by simp
    rw [hassoc]
    refine initSlashes_repl k hk _ ?_
    intro c cl hcc
    rw [hj0, List.cons_append] at hcc
    injection hcc with h1 _
    exact h1 ▸ hc0
  have hcomps : splitSlash ((List.replicate k '/' ++ joinPieces segs') ++
      '/' :: ['.', '.']) = (List.replicate k [] ++ segs') ++ [['.', '.']] := by
    rw [splitSlash_append_slash, splitSlash_repl_append,
      splitSlash_joinPieces segs' hne (fun t ht => (hsegs' t ht).2)]
    rfl
  rw [hjoin, normpath_dotdot_last _ (by rcases hk with rfl | rfl <;> simp)
    (List.replicate k [] ++ segs') hcomps ?nodd3 k hinit hk0]
  case nodd3 =>
    intro t ht
    rcases List.mem_append.mp ht with h | h
    · rw [List.eq_of_mem_replicate h]; simp
    · exact (hsegs' t h).1.2.2
  rw [filter_keepSeg_repl, filter_keepSeg_of_valid segs'
    (fun t ht => (hsegs' t ht).1)]

/-- C8 (amended): from a well-formed cursor denoting Directory `D` that
has a direct child Directory `s` named `subdir`, `change_dir(subdir)`
followed by `change_dir("..")` succeeds and restores the cursor exactly —
provided `subdir` is a genuine name: non-empty, not `.`, not `..`, and
containing no separator (a child keyed `.` or the empty string defeats
the round trip, see the counterexample). -/
theorem cd_subdir_dotdot_roundtrip (fs : FS) (name : String) (D s : VFile)
    (k : Nat) (segs : List (List Char)) (hk : k = 1 ∨ k = 2)
    (hsegs : ∀ t ∈ segs, validSeg t ∧ '/' ∉ t)
    (hcur : fs.current_path.toList = List.replicate k '/' ++ joinPieces segs)
    (hD : get_nodeR fs "" = .ok D) (hDdir : D.is_dir = true)
    (hchild : chGet D.children name = some s) (hsdir : s.is_dir = true)
    (hname : validSeg name.toList) (hnslash : '/' ∉ name.toList) :
    (change_dir fs name).1 = true ∧
    (change_dir (change_dir fs name).2 "..").1 = true ∧
    (change_dir (change_dir fs name).2 "..").2.current_path =
      fs.current_path := by
  have hk0 : k ≠ 0 := by rcases hk with rfl | rfl <;> simp
  have hcabs : isAbs fs.current_path.toList = true := by
    rw [hcur]; exact isAbs_repl_append k hk0 _
  have habsC : absResolveWith fs.root fs.pd fs.current_path.toList = .ok D := by
    unfold get_nodeR at hD
    rw [if_neg (by decide), if_pos hcabs] at hD
    cases hres : absResolveWith fs.root fs.pd fs.current_path.toList with
    | ok cur =>
      rw [hres] at hD
      dsimp only at hD
      rw [if_pos (show "".toList = [] from rfl)] at hD
      exact hD
    | notFound =>
      rw [hres] at hD
      dsimp only at hD
      rw [if_pos (show "".toList = [] from rfl)] at hD
      cases hD
    | diverge =>
      rw [hres] at hD
      cases hD
  have hwD : walkAux fs.root fs.pd (some fs.root) segs = .cont (some D) := by
    have h := habsC
    rw [hcur, absResolveWith_repl_join fs.root fs.pd k segs hsegs] at h
    exact (walk_eq_ok _ _ _ _ _).mp h
  have hnabs : isAbs name.toList = false := by
    cases hn : name.toList with
    | nil => rfl
    | cons c cl =>
      have hc : c ≠ '/' := fun hh => hnslash (hn ▸ (hh ▸ List.mem_cons_self c cl))
      simp [isAbs, hc]
  have hsplitn : splitSlash name.toList = [name.toList] :=
    splitSlash_single _ hnslash
  have hoks : get_nodeR fs name = .ok s := by
    unfold get_nodeR
    rw [if_neg (by simp only [Bool.not_eq_true]; exact hnabs), if_pos hcabs, habsC]
    dsimp only
    rw [if_neg hname.1, hsplitn, walk_eq_ok,
      walkAux_name_head fs.root fs.pd D name.toList [] hname, mk_toList, hchild]
    rfl
  have hsegs1 : ∀ t ∈ segs ++ [name.toList], validSeg t ∧ '/' ∉ t := by
    intro t ht
    rcases List.mem_append.mp ht with h | h
    · exact hsegs t h
    · rw [List.mem_singleton.mp h]; exact ⟨hname, hnslash⟩
  have hnp1 := joinPath_norm_append_seg fs.current_path.toList name.toList k hk
    segs hsegs hcur hname hnslash
  have hcd1 : change_dir fs name = (true, ⟨fs.root,
      String.mk (List.replicate k '/' ++ joinPieces (segs ++ [name.toList]))⟩) :=
    change_dir_eval_ok fs name s hoks hsdir _
      (by rw [if_neg (by simp only [Bool.not_eq_true]; exact hnabs)]; exact hnp1)
      (isAbs_repl_append k hk0 _)
  have hpd1 : (FS.mk fs.root (String.mk (List.replicate k '/' ++
      joinPieces (segs ++ [name.toList])))).pd = .ok D := by
    rw [pd_goodC fs.root _ k (segs ++ [name.toList]) hk hsegs1 rfl,
      List.dropLast_concat, walk_eq_ok,
      walkAux_pd_irrel fs.root .diverge fs.pd _ segs
        (fun t ht => (hsegs t ht).1.2.2)]
    exact hwD
  have hsne : s ≠ fs.root :=
    child_ne_ancestor fs.root D s name (get_nodeR_reach fs "" D hD) hchild
  have hokD : get_nodeR ⟨fs.root, String.mk (List.replicate k '/' ++
      joinPieces (segs ++ [name.toList]))⟩ ".." = .ok D := by
    unfold get_nodeR
    dsimp only [String.toList]
    rw [if_neg (by decide), if_pos (isAbs_repl_append k hk0 _)]
    rw [show name.data = name.toList from rfl]
    have hres1 : absResolveWith fs.root
        (FS.mk fs.root (String.mk (List.replicate k '/' ++
          joinPieces (segs ++ [name.toList])))).pd
        (List.replicate k '/' ++ joinPieces (segs ++ [name.toList])) = .ok s := by
      rw [absResolveWith_repl_join fs.root _ k (segs ++ [name.toList]) hsegs1,
        walk_eq_ok, walkAux_append,
        walkAux_pd_irrel fs.root _ fs.pd _ segs
          (fun t ht => (hsegs t ht).1.2.2), hwD]
      dsimp only
      rw [walkAux_name_head fs.root _ D name.toList [] hname, mk_toList, hchild]
      rfl
    rw [hres1]
    dsimp only
    rw [if_neg (by decide),
      show splitSlash ['.', '.'] = [['.', '.']] from rfl,
      walk_eq_ok, walkAux_dotdot_single, if_neg hsne, hpd1]
  have hnp2 := joinPath_norm_append_dotdot k hk (segs ++ [name.toList]) hsegs1
    (by simp)
  have hcd2 : change_dir ⟨fs.root, String.mk (List.replicate k '/' ++
      joinPieces (segs ++ [name.toList]))⟩ ".." = (true, ⟨fs.root,
      String.mk (List.replicate k '/' ++
        joinPieces ((segs ++ [name.toList]).dropLast))⟩) :=
    change_dir_eval_ok _ ".." D hokD hDdir _
      (by rw [if_neg (by decide)]; exact hnp2)
      (isAbs_repl_append k hk0 _)
  refine ⟨by rw [hcd1], ?_, ?_⟩
  · rw [hcd1]
    dsimp only
    rw [hcd2]
  · rw [hcd1]
    dsimp only
    rw [hcd2]
    dsimp only
    rw [List.dropLast_concat, ← hcur, mk_toList]

theorem c8_counterexample :
    (change_dir (initFS [⟨"a/./b", true, none⟩]) "a").1 = true ∧
    (change_dir (initFS [⟨"a/./b", true, none⟩]) "a").2.current_path = "/a" ∧
    (match get_nodeR (change_dir (initFS [⟨"a/./b", true, none⟩]) "a").2 "" with
     | .ok nA =>
       (match chGet nA.children "." with
        | some d => d.is_dir
        | none => false)
     | _ => false) = true ∧
    (change_dir (change_dir (initFS [⟨"a/./b", true, none⟩]) "a").2 ".").1
      = true ∧
    (change_dir (change_dir
        (change_dir (initFS [⟨"a/./b", true, none⟩]) "a").2 ".").2 "..").1
      = true ∧
    (change_dir (change_dir
        (change_dir (initFS [⟨"a/./b", true, none⟩]) "a").2 ".").2 "..").2.current_path
      = "/" :=
  ⟨by decide, by decide, by decide, by decide, by decide, by decide⟩

theorem cd_subdir_dotdot_roundtrip_witness :
    (change_dir (change_dir (initFS [⟨"a/b/", true, none⟩]) "a").2 "b").1
      = true ∧
    (change_dir (change_dir
        (change_dir (initFS [⟨"a/b/", true, none⟩]) "a").2 "b").2 "..").1
      = true ∧
    (change_dir (change_dir
        (change_dir (initFS [⟨"a/b/", true, none⟩]) "a").2 "b").2 "..").2.current_path
      = (change_dir (initFS [⟨"a/b/", true, none⟩]) "a").2.current_path :=
  cd_subdir_dotdot_roundtrip (change_dir (initFS [⟨"a/b/", true, none⟩]) "a").2
    "b" (VFile.mk "a" true (Children.cons "b" (VFile.mk "b" true .nil "") .nil) "")
    (VFile.mk "b" true .nil "") 1 [['a']] (Or.inl rfl) (by decide) (by decide)
    (by decide) (by decide) (by decide) (by decide) (by decide) (by decide)

/-! ## Claim C10: trailing skip segments on files, and what NotFound means -/

theorem walkAux_nil (root : VFile) (pd : RRes) (cur : Option VFile) :
    walkAux root pd cur [] = .cont cur := rfl

theorem get_nodeR_append_skip (fs : FS) (q : String) (c : VFile) (x : List Char)
    (r : String) (hr : r.toList = q.toList ++ '/' :: x)
    (hx : x = [] ∨ x = ['.'])
    (hq : q ≠ "") (hok : get_nodeR fs q = .ok c) :
    get_nodeR fs r = .ok c := by
  have hqne : q.toList ≠ [] := fun h => hq (toList_eq_nil q h)
  have hsx : splitSlash x = [x] := by rcases hx with rfl | rfl <;> rfl
  have hskipx : ∀ (st : Option VFile) (ps : List (List Char)),
      walkAux fs.root fs.pd st ps = .cont (some c) →
      walk fs.root fs.pd st (ps ++ [x]) = .ok c := by
    intro st ps hst
    rw [walk_eq_ok, walkAux_append, hst]
    dsimp only
    rw [walkAux_skip_head fs.root fs.pd (some c) x []
      (by rcases hx with rfl | rfl; exacts [Or.inr rfl, Or.inl rfl]),
      walkAux_nil]
  unfold get_nodeR at hok ⊢
  rw [hr]
  by_cases habs : isAbs q.toList = true
  · rw [if_pos habs] at hok
    rw [if_pos (by rw [isAbs_append _ _ hqne]; exact habs)]
    unfold absResolveWith at hok ⊢
    by_cases hlp : lstripSlash q.toList = []
    · rw [if_pos hlp] at hok
      have hceq : c = fs.root := by injection hok with h; exact h.symm
      have hl2 : lstripSlash (q.toList ++ '/' :: x) = x := by
        unfold lstripSlash at hlp ⊢
        rw [List.dropWhile_append, if_pos (by rw [List.isEmpty_iff]; exact hlp)]
        rcases hx with rfl | rfl <;> rfl
      rw [hl2]
      rcases hx with rfl | rfl
      · rw [if_pos rfl, hceq]
      · rw [if_neg (by simp), walk_eq_ok,
          show splitSlash ['.'] = [['.']] from rfl,
          walkAux_skip_head fs.root fs.pd (some fs.root) ['.'] [] (Or.inl rfl),
          walkAux_nil, hceq]
    · rw [if_neg hlp] at hok
      rw [lstrip_append_of_ne _ ('/' :: x) hlp,
        if_neg (by simp [hlp]), splitSlash_append_slash, hsx]
      exact hskipx (some fs.root) _ ((walk_eq_ok _ _ _ _ _).mp hok)
  · rw [if_neg habs] at hok
    rw [if_neg (by rw [isAbs_append _ _ hqne]; exact habs)]
    by_cases hcabs : isAbs fs.current_path.toList = true
    · rw [if_pos hcabs] at hok ⊢
      cases hres : absResolveWith fs.root fs.pd fs.current_path.toList with
      | ok cur =>
        rw [hres] at hok
        dsimp only at hok ⊢
        rw [if_neg hqne] at hok
        rw [if_neg (by simp), splitSlash_append_slash, hsx]
        exact hskipx (some cur) _ ((walk_eq_ok _ _ _ _ _).mp hok)
      | notFound =>
        rw [hres] at hok
        dsimp only at hok ⊢
        rw [if_neg hqne] at hok
        rw [if_neg (by simp), splitSlash_append_slash, hsx]
        exact hskipx none _ ((walk_eq_ok _ _ _ _ _).mp hok)
      | diverge =>
        rw [hres] at hok
        cases hok
    · rw [if_neg hcabs] at hok
      cases hok

/-- Every `failed` outcome of the resolution loop pins down the exact
cause: a prefix of the segments walks to a node `m` and the next valid
(named) segment `s` is absent from `m.children` — lines 70-72 of the
source, `current.children.get(part)` returning `None`.  (A File's
children dict is always empty, so lookups under a File fail this way.) -/
theorem walkAux_failed_decomp (root : VFile) (pd : RRes) (cur : Option VFile)
    (ps : List (List Char)) (h : walkAux root pd cur ps = .failed) :
    ∃ xs s ys m, ps = xs ++ s :: ys ∧ validSeg s ∧
      walkAux root pd cur xs = .cont (some m) ∧
      chGet m.children (String.mk s) = none := by
  induction ps generalizing cur with
  | nil =>
    rw [walkAux_nil] at h
    cases h
  | cons part rest ih =>
    rw [walkAux.eq_def] at h
    dsimp only at h
    by_cases h1 : part = ['.', '.']
    · rw [if_pos h1] at h
      by_cases h2 : cur = some root
      · rw [if_pos h2] at h
        obtain ⟨xs, s, ys, m, hps, hv, hw, hc⟩ := ih cur h
        refine ⟨part :: xs, s, ys, m, by rw [hps]; rfl, hv, ?_, hc⟩
        rw [walkAux.eq_def]
        dsimp only
        rw [if_pos h1, if_pos h2]
        exact hw
      · rw [if_neg h2] at h
        revert h ih
        cases pd with
        | ok p =>
          intro ih h
          obtain ⟨xs, s, ys, m, hps, hv, hw, hc⟩ := ih (some p) h
          refine ⟨part :: xs, s, ys, m, by rw [hps]; rfl, hv, ?_, hc⟩
          rw [walkAux.eq_def]
          dsimp only
          rw [if_pos h1, if_neg h2]
          exact hw
        | notFound =>
          intro ih h
          obtain ⟨xs, s, ys, m, hps, hv, hw, hc⟩ := ih (some root) h
          refine ⟨part :: xs, s, ys, m, by rw [hps]; rfl, hv, ?_, hc⟩
          rw [walkAux.eq_def]
          dsimp only
          rw [if_pos h1, if_neg h2]
          exact hw
        | diverge =>
          intro ih h
          cases h
    · rw [if_neg h1] at h
      by_cases h2 : part = ['.'] ∨ part = []
      · rw [if_pos h2] at h
        obtain ⟨xs, s, ys, m, hps, hv, hw, hc⟩ := ih cur h
        refine ⟨part :: xs, s, ys, m, by rw [hps]; rfl, hv, ?_, hc⟩
        rw [walkAux_skip_head root pd cur part xs h2]
        exact hw
      · rw [if_neg h2] at h
        have h2' := h2
        push_neg at h2'
        have hv : validSeg part := ⟨h2'.2, h2'.1, h1⟩
        cases cur with
        | none =>
          dsimp only at h
          cases h
        | some c =>
          dsimp only at h
          cases hg : chGet c.children (String.mk part) with
          | none =>
            exact ⟨[], part, rest, c, rfl, hv, rfl, hg⟩
          | some nxt =>
            rw [hg] at h
            dsimp only at h
            obtain ⟨xs, s, ys, m, hps, hv', hw, hc⟩ := ih (some nxt) h
            refine ⟨part :: xs, s, ys, m, by rw [hps]; rfl, hv', ?_, hc⟩
            rw [walkAux.eq_def]
            dsimp only
            rw [if_neg h1, if_neg h2, hg]
            dsimp only
            exact hw

/-- C10: a path `q` that resolves to a File node `f` still resolves to the
same `f` with a trailing separator (`q/`) or trailing `.` segment (`q/.`)
appended — those segments are skipped, not looked up — so `read_tail`
accepts such paths (returning exactly what it returns for `q`) while
`list_dir` on them returns the NotFound signal; and every NotFound outcome
of resolution is caused by a valid named (non-`.`, non-`..`, non-empty)
segment of the path being absent from the children of the node walked to
at that point (a File's children dict is always empty, so lookups under a
File fail exactly this way). -/
theorem file_trailing_skip_and_notFound_cause (fs : FS) (q : String)
    (f c0 : VFile)
    (habsC : absResolveWith fs.root fs.pd fs.current_path.toList = .ok c0)
    (hq : q ≠ "") (hok : get_nodeR fs q = .ok f) (hfile : f.is_dir = false) :
    get_nodeR fs (q ++ "/") = .ok f ∧
    get_nodeR fs (q ++ "/.") = .ok f ∧
    (∀ lines : Int, read_tail fs (q ++ "/") lines = read_tail fs q lines ∧
      read_tail fs (q ++ "/.") lines = read_tail fs q lines ∧
      (read_tail fs q lines).isSome = true) ∧
    list_dir fs (q ++ "/") = none ∧
    list_dir fs (q ++ "/.") = none ∧
    (∀ p : String, get_nodeR fs p = .notFound →
      ∃ st xs s ys m, walkAux fs.root fs.pd (some st) xs = .cont (some m) ∧
        validSeg s ∧ chGet m.children (String.mk s) = none ∧
        ((isAbs p.toList = true ∧ st = fs.root ∧
            splitSlash (lstripSlash p.toList) = xs ++ s :: ys) ∨
         (isAbs p.toList = false ∧ st = c0 ∧
            splitSlash p.toList = xs ++ s :: ys))) := by
  have hqf1 : get_nodeR fs (q ++ "/") = .ok f :=
    get_nodeR_append_skip fs q f [] (q ++ "/")
      (by rw [toList_append]; rfl) (Or.inl rfl) hq hok
  have hqf2 : get_nodeR fs (q ++ "/.") = .ok f :=
    get_nodeR_append_skip fs q f ['.'] (q ++ "/.")
      (by rw [toList_append]; rfl) (Or.inr rfl) hq hok
  refine ⟨hqf1, hqf2, ?_, ?_, ?_, ?_⟩
  · intro lines
    refine ⟨?_, ?_, ?_⟩
    · unfold read_tail
      rw [hqf1, hok]
    · unfold read_tail
      rw [hqf2, hok]
    · unfold read_tail
      rw [hok]
      dsimp only
      rw [if_neg (by simp [hfile])]
      rfl
  · unfold list_dir
    rw [hqf1]
    dsimp only
    rw [if_neg (by simp [hfile])]
  · unfold list_dir
    rw [hqf2]
    dsimp only
    rw [if_neg (by simp [hfile])]
  · intro p hnf
    unfold get_nodeR at hnf
    by_cases habs : isAbs p.toList = true
    · rw [if_pos habs] at hnf
      unfold absResolveWith at hnf
      by_cases hlp : lstripSlash p.toList = []
      · rw [if_pos hlp] at hnf
        cases hnf
      · rw [if_neg hlp] at hnf
        cases hw : walkAux fs.root fs.pd (some fs.root)
            (splitSlash (lstripSlash p.toList)) with
        | cont o =>
          cases o with
          | none => exact absurd hw (walkAux_ne_cont_none fs.root fs.pd fs.root _)
          | some v =>
            unfold walk at hnf
            rw [hw] at hnf
            cases hnf
        | failed =>
          obtain ⟨xs, s, ys, m, hps, hv, hwk, hc⟩ :=
            walkAux_failed_decomp fs.root fs.pd (some fs.root) _ hw
          exact ⟨fs.root, xs, s, ys, m, hwk, hv, hc, Or.inl ⟨habs, rfl, hps⟩⟩
        | diverge =>
          unfold walk at hnf
          rw [hw] at hnf
          cases hnf
    · rw [if_neg habs] at hnf
      have hcabs : isAbs fs.current_path.toList = true := by
        by_contra hc
        rw [if_neg hc] at hnf
        cases hnf
      rw [if_pos hcabs, habsC] at hnf
      dsimp only at hnf
      by_cases hpnil : p.toList = []
      · rw [if_pos hpnil] at hnf
        cases hnf
      · rw [if_neg hpnil] at hnf
        cases hw : walkAux fs.root fs.pd (some c0) (splitSlash p.toList) with
        | cont o =>
          cases o with
          | none => exact absurd hw (walkAux_ne_cont_none fs.root fs.pd c0 _)
          | some v =>
            unfold walk at hnf
            rw [hw] at hnf
            cases hnf
        | failed =>
          obtain ⟨xs, s, ys, m, hps, hv, hwk, hc⟩ :=
            walkAux_failed_decomp fs.root fs.pd (some c0) _ hw
          exact ⟨c0, xs, s, ys, m, hwk, hv, hc,
            Or.inr ⟨by simpa using habs, rfl, hps⟩⟩
        | diverge =>
          unfold walk at hnf
          rw [hw] at hnf
          cases hnf

theorem file_trailing_skip_and_notFound_cause_witness :
    get_nodeR (initFS [⟨"dir1/file1.txt", false, some "Line 1\nLine 2"⟩])
        ("/dir1/file1.txt" ++ "/") =
      .ok (VFile.mk "file1.txt" false .nil "Line 1\nLine 2") ∧
    read_tail (initFS [⟨"dir1/file1.txt", false, some "Line 1\nLine 2"⟩])
        ("/dir1/file1.txt" ++ "/.") 1 =
      read_tail (initFS [⟨"dir1/file1.txt", false, some "Line 1\nLine 2"⟩])
        "/dir1/file1.txt" 1 ∧
    list_dir (initFS [⟨"dir1/file1.txt", false, some "Line 1\nLine 2"⟩])
        ("/dir1/file1.txt" ++ "/") = none :=
  ⟨(file_trailing_skip_and_notFound_cause
      (initFS [⟨"dir1/file1.txt", false, some "Line 1\nLine 2"⟩])
      "/dir1/file1.txt" (VFile.mk "file1.txt" false .nil "Line 1\nLine 2")
      (initFS [⟨"dir1/file1.txt", false, some "Line 1\nLine 2"⟩]).root
      (by decide) (by decide) (by decide) (by decide)).1,
   ((file_trailing_skip_and_notFound_cause
      (initFS [⟨"dir1/file1.txt", false, some "Line 1\nLine 2"⟩])
      "/dir1/file1.txt" (VFile.mk "file1.txt" false .nil "Line 1\nLine 2")
      (initFS [⟨"dir1/file1.txt", false, some "Line 1\nLine 2"⟩]).root
      (by decide) (by decide) (by decide) (by decide)).2.2.1 1).2.1,
   (file_trailing_skip_and_notFound_cause
      (initFS [⟨"dir1/file1.txt", false, some "Line 1\nLine 2"⟩])
      "/dir1/file1.txt" (VFile.mk "file1.txt" false .nil "Line 1\nLine 2")
      (initFS [⟨"dir1/file1.txt", false, some "Line 1\nLine 2"⟩]).root
      (by decide) (by decide) (by decide) (by decide)).2.2.2.1⟩
